import Mathlib

/-!
Verification of the dependency-graph and rule-theory core of the congress
policy engine (`congress/datalog/utility.py`, `congress/datalog/nonrecursive.py`).

The Python classes are shallowly embedded:
* Python dicts become association lists in insertion order (`alookup`,
  `aupdate`, `aerase` mirror `d[k]`, `d[k] = v`, `del d[k]`).
* Python sets of `edge_data` become duplicate-free lists in insertion order.
* The recursive depth-first search is embedded with an explicit fuel
  parameter; a sufficiency lemma shows the fuel chosen by
  `depth_first_search` never runs out, so the embedding is total exactly
  where the Python code terminates.
* Exceptions are embedded with `Except`: a raising call returns `.error`
  and the mutated state reached so far is threaded explicitly.
-/

set_option linter.unusedSectionVars false

namespace Congress

section AssocList

variable {α : Type} {β : Type} [DecidableEq α]

/-- Lookup in an association list (Python `d[k]` / `k in d`). -/
def alookup : List (α × β) → α → Option β
  | [], _ => none
  | (k, v) :: r, a => if k = a then some v else alookup r a

/-- Insert-or-replace in an association list, preserving the position of an
existing key (Python `d[k] = v` keeps the key's insertion position). -/
def aupdate : List (α × β) → α → β → List (α × β)
  | [], a, b => [(a, b)]
  | (k, v) :: r, a, b => if k = a then (a, b) :: r else (k, v) :: aupdate r a b

/-- Remove a key from an association list (Python `del d[k]`). -/
def aerase : List (α × β) → α → List (α × β)
  | [], _ => []
  | (k, v) :: r, a => if k = a then r else (k, v) :: aerase r a

end AssocList

section GraphDefs

variable {V : Type} {L : Type} [DecidableEq V] [DecidableEq L]

/-- `Graph.edge_data`: the data stored for each outgoing edge (target node and
label).  Python equality compares node and label structurally. -/
structure EdgeData (V L : Type) where
  node : V
  label : L
deriving DecidableEq, Repr

/-- The `Graph` class state: `nodes` is the key list of the `self.nodes` dict
(in insertion order), `edges` the adjacency dict mapping a node to its list of
`edge_data` (Python uses a set; we fix iteration order to insertion order),
`beg`/`fin` hold the per-node DFS `begin`/`end` timestamps (the values of the
`self.nodes` dict), `counter`, `cycles` and `backpath` are the remaining
attributes set by `reset`/`dfs`. -/
structure Graph (V L : Type) where
  nodes : List V
  edges : List (V × List (EdgeData V L))
  beg : List (V × Nat)
  fin : List (V × Nat)
  counter : Nat
  cycles : Option (List (List V))
  backpath : List (V × V)
deriving DecidableEq, Repr

/-- `Graph.__init__`: empty node and edge dicts, `cycles = None`. -/
def Graph.empty : Graph V L := ⟨[], [], [], [], 0, none, []⟩

/-- `Graph.add_node`: add the node if absent (preserving old node info),
returning whether the graph changed.  Does not touch `cycles`. -/
def Graph.add_node (g : Graph V L) (v : V) : Graph V L × Bool :=
  if v ∈ g.nodes then (g, false)
  else ({ g with nodes := g.nodes ++ [v] }, true)

/-- `Graph.delete_node`: `del self.nodes[val]; del self.edges[val]` with the
`KeyError` caught when the node is absent.  Deleting the `nodes` entry also
drops the node's DFS data.  Does not touch `cycles` and leaves edges of other
nodes (including edges pointing to `v`) in place. -/
def Graph.delete_node (g : Graph V L) (v : V) : Graph V L :=
  if v ∈ g.nodes then
    { g with nodes := g.nodes.erase v, edges := aerase g.edges v,
             beg := aerase g.beg v, fin := aerase g.fin v }
  else g

/-- `Graph.add_edge`: clear the cycle cache, add both endpoint nodes, then add
the edge to `val1`'s bucket unless already present (set semantics). -/
def Graph.add_edge (g : Graph V L) (v1 v2 : V) (l : L) : Graph V L :=
  let ga := (({ g with cycles := none } : Graph V L).add_node v1).1
  let gb := (ga.add_node v2).1
  match alookup gb.edges v1 with
  | some b =>
    if (⟨v2, l⟩ : EdgeData V L) ∈ b then gb
    else { gb with edges := aupdate gb.edges v1 (b ++ [⟨v2, l⟩]) }
  | none => { gb with edges := gb.edges ++ [(v1, [⟨v2, l⟩])] }

/-- `Graph.delete_edge`: remove the labelled edge if present (the `KeyError`
from a missing bucket or missing edge is caught and nothing changes, in
particular the cycle cache stays); on success the cycle cache is cleared. -/
def Graph.delete_edge (g : Graph V L) (v1 v2 : V) (l : L) : Graph V L :=
  match alookup g.edges v1 with
  | none => g
  | some b =>
    if (⟨v2, l⟩ : EdgeData V L) ∈ b then
      { g with edges := aupdate g.edges v1 (b.erase ⟨v2, l⟩), cycles := none }
    else g

/-- `Graph.node_in`. -/
def Graph.node_in (g : Graph V L) (v : V) : Bool := decide (v ∈ g.nodes)

/-- `Graph.edge_in`. -/
def Graph.edge_in (g : Graph V L) (v1 v2 : V) (l : L) : Bool :=
  match alookup g.edges v1 with
  | some b => decide ((⟨v2, l⟩ : EdgeData V L) ∈ b)
  | none => false

/-- `Graph.__len__`: number of nodes plus total number of edges. -/
def Graph.glen (g : Graph V L) : Nat :=
  g.nodes.length + (g.edges.map (fun p => p.2.length)).sum

/-- `Graph.__ior__`: no changes at all if the operand is empty; otherwise
clear the cycle cache and add the operand's nodes and edges. -/
def Graph.iorUnion (g other : Graph V L) : Graph V L :=
  if other.glen = 0 then g
  else
    let g1 := ({ g with cycles := none } : Graph V L)
    let g2 := other.nodes.foldl (fun a v => (a.add_node v).1) g1
    other.edges.foldl
      (fun a p => p.2.foldl (fun a2 e => a2.add_edge p.1 e.node e.label) a) g2

/-- Well-formedness maintained by the `Graph` API: node keys and adjacency
keys are dict keys (hence duplicate-free), and every edge endpoint is a
node. -/
def Graph.WF (g : Graph V L) : Prop :=
  g.nodes.Nodup ∧ (g.edges.map Prod.fst).Nodup ∧
    ∀ p ∈ g.edges, p.1 ∈ g.nodes ∧ ∀ e ∈ p.2, e.node ∈ g.nodes

instance (g : Graph V L) : Decidable g.WF := by
  unfold Graph.WF; infer_instance

/-- Helper shared by `Graph.add_edge` and `BagGraph.add_edge`: the bucket
insertion `self.edges[val1].add(edge_data(val2, label))` together with the
`KeyError` fallback that creates the bucket. -/
def Graph.insertEdgeData (g : Graph V L) (v1 v2 : V) (l : L) : Graph V L :=
  match alookup g.edges v1 with
  | some b =>
    if (⟨v2, l⟩ : EdgeData V L) ∈ b then g
    else { g with edges := aupdate g.edges v1 (b ++ [⟨v2, l⟩]) }
  | none => { g with edges := g.edges ++ [(v1, [⟨v2, l⟩])] }

/-- `BagGraph` state: the underlying plain graph plus the two reference-count
dicts.  Counts are integers, as in Python, so that the strictly-positive
invariant of the counts is a real statement rather than an artefact of a
truncating subtraction. -/
structure BagGraph (V L : Type) where
  G : Graph V L
  nrc : List (V × Int)
  erc : List ((V × V × L) × Int)
deriving DecidableEq, Repr

/-- `BagGraph.__init__`. -/
def BagGraph.empty : BagGraph V L := ⟨Graph.empty, [], []⟩

/-- `BagGraph.add_node`: plain add plus node refcount increment. -/
def BagGraph.add_node (b : BagGraph V L) (v : V) : BagGraph V L :=
  let G' := (b.G.add_node v).1
  match alookup b.nrc v with
  | some c => ⟨G', aupdate b.nrc v (c + 1), b.erc⟩
  | none => ⟨G', aupdate b.nrc v 1, b.erc⟩

/-- `BagGraph.delete_node`: no-op when the node is uncounted; otherwise
decrement, and on reaching zero remove the count entry and physically delete
the node from the plain graph. -/
def BagGraph.delete_node (b : BagGraph V L) (v : V) : BagGraph V L :=
  match alookup b.nrc v with
  | none => b
  | some c =>
    if c - 1 = 0 then ⟨b.G.delete_node v, aerase b.nrc v, b.erc⟩
    else ⟨b.G, aupdate b.nrc v (c - 1), b.erc⟩

/-- The node-insertion prefix of `super().add_edge` as called from
`BagGraph.add_edge`: clear the cycle cache, then `self.add_node(val1)` and
`self.add_node(val2)` — dynamic dispatch reaches the bag version, so both
endpoint reference counts are incremented. -/
def BagGraph.addBothNodes (b : BagGraph V L) (v1 v2 : V) : BagGraph V L :=
  ((⟨{ b.G with cycles := none }, b.nrc, b.erc⟩ : BagGraph V L).add_node v1).add_node v2

/-- `BagGraph.add_edge`: `super().add_edge` (bag-adding both endpoints and
inserting the edge data), then the edge refcount is incremented. -/
def BagGraph.add_edge (b : BagGraph V L) (v1 v2 : V) (l : L) : BagGraph V L :=
  let b2 := b.addBothNodes v1 v2
  let G' := b2.G.insertEdgeData v1 v2 l
  match alookup b.erc (v1, v2, l) with
  | some c => ⟨G', b2.nrc, aupdate b.erc (v1, v2, l) (c + 1)⟩
  | none => ⟨G', b2.nrc, aupdate b.erc (v1, v2, l) 1⟩

/-- The `self.delete_node(val1); self.delete_node(val2)` prefix of
`BagGraph.delete_edge`. -/
def BagGraph.delBothNodes (b : BagGraph V L) (v1 v2 : V) : BagGraph V L :=
  (b.delete_node v1).delete_node v2

/-- `BagGraph.delete_edge`: no-op when the edge is uncounted; otherwise
bag-delete both endpoint nodes, decrement the edge count, and on reaching
zero physically delete the edge (`super().delete_edge`, which clears the
cycle cache on success) and drop the count entry. -/
def BagGraph.delete_edge (b : BagGraph V L) (v1 v2 : V) (l : L) : BagGraph V L :=
  match alookup b.erc (v1, v2, l) with
  | none => b
  | some c =>
    let b2 := b.delBothNodes v1 v2
    if c - 1 = 0 then ⟨b2.G.delete_edge v1 v2 l, b2.nrc, aerase b.erc (v1, v2, l)⟩
    else ⟨b2.G, b2.nrc, aupdate b.erc (v1, v2, l) (c - 1)⟩

/-- `BagGraph.node_in`. -/
def BagGraph.node_in (b : BagGraph V L) (v : V) : Bool := (alookup b.nrc v).isSome

/-- `BagGraph.edge_in`. -/
def BagGraph.edge_in (b : BagGraph V L) (v1 v2 : V) (l : L) : Bool :=
  (alookup b.erc (v1, v2, l)).isSome

/-- `BagGraph.node_count`. -/
def BagGraph.node_count (b : BagGraph V L) (v : V) : Int :=
  (alookup b.nrc v).getD 0

/-- `BagGraph.edge_count`. -/
def BagGraph.edge_count (b : BagGraph V L) (v1 v2 : V) (l : L) : Int :=
  (alookup b.erc (v1, v2, l)).getD 0

/-- One caller-driven `BagGraph` mutation. -/
inductive BagOp (V L : Type) where
  | addN (v : V)
  | delN (v : V)
  | addE (v1 v2 : V) (l : L)
  | delE (v1 v2 : V) (l : L)

/-- Apply one mutation. -/
def BagGraph.applyOp (b : BagGraph V L) : BagOp V L → BagGraph V L
  | .addN v => b.add_node v
  | .delN v => b.delete_node v
  | .addE v1 v2 l => b.add_edge v1 v2 l
  | .delE v1 v2 l => b.delete_edge v1 v2 l

/-- A `BagGraph` built from the empty graph by a sequence of mutations. -/
def BagGraph.runOps (ops : List (BagOp V L)) : BagGraph V L :=
  ops.foldl BagGraph.applyOp BagGraph.empty

end GraphDefs

section DfsDefs

variable {V : Type} {L : Type} [DecidableEq V] [DecidableEq L]

/-- Adjacency used by traversals: `self.edges[node]` when present. -/
def Graph.adj (g : Graph V L) (v : V) : List (EdgeData V L) :=
  (alookup g.edges v).getD []

/-- The `while prev != node` walk of `Graph.construct_cycle`.  The fuel bound
is immaterial: in the states produced by `dfs` the walk reaches `node`
within `|backpath|` steps (a non-terminating walk would be an infinite loop
in Python as well). -/
def ccWalk : Nat → List (V × V) → V → V → List V → List V
  | 0, _, _, _, acc => acc
  | f + 1, hist, node, prev, acc =>
    if prev = node then acc
    else
      match alookup hist prev with
      | none => acc
      | some p => ccWalk f hist node p (acc ++ [p])

/-- `Graph.construct_cycle`: walk the backpath from `node` until it reaches
`node` again, append `node`, and reverse. -/
def construct_cycle (hist : List (V × V)) (node : V) : List V :=
  match alookup hist node with
  | none => [node]
  | some prev => ((ccWalk (hist.length + 1) hist node prev [prev]) ++ [node]).reverse

/-- Work items of the embedded recursive `Graph.dfs`: either visit a node
(assign its `begin`, scan its edges, assign its `end`) or scan a suffix of
an adjacency list. -/
inductive Task (V L : Type) where
  | visit (v : V)
  | scan (v : V) (es : List (EdgeData V L))

/-- The recursive body of `Graph.dfs`, with an explicit fuel parameter so the
definition is structural (hence kernel-computable).  `dfsGo_enough_fuel`
below shows the fuel supplied by `depth_first_search` never runs out. -/
def dfsGo : Nat → Graph V L → Task V L → Option (Graph V L)
  | 0, _, _ => none
  | f + 1, g, .visit v =>
    let g1 := { g with beg := aupdate g.beg v g.counter, counter := g.counter + 1 }
    match dfsGo f g1 (.scan v (g1.adj v)) with
    | none => none
    | some g2 => some { g2 with fin := aupdate g2.fin v g2.counter, counter := g2.counter + 1 }
  | _ + 1, g, .scan _ [] => some g
  | f + 1, g, .scan v (e :: rest) =>
    let g1 := { g with backpath := aupdate g.backpath e.node v }
    if alookup g1.beg e.node = none then
      match dfsGo f g1 (.visit e.node) with
      | none => none
      | some g2 => dfsGo f g2 (.scan v rest)
    else if alookup g1.fin e.node = none then
      dfsGo f { g1 with
        cycles := some ((g1.cycles.getD []) ++ [construct_cycle g1.backpath e.node]) }
        (.scan v rest)
    else dfsGo f g1 (.scan v rest)

/-- `Graph.reset`: pristine DFS data on every node, counter `0`, empty cycle
list and backpath. -/
def Graph.reset (g : Graph V L) : Graph V L :=
  { g with beg := [], fin := [], counter := 0, cycles := some [], backpath := [] }

/-- Fuel budget: every `visit` costs two steps (assign `begin`, assign `end`)
and every scanned edge one step. -/
def Graph.gsize (g : Graph V L) : Nat :=
  (g.nodes.map (fun v => 2 + (g.adj v).length)).sum

/-- The node loop of `Graph.depth_first_search`. -/
def dfsLoop : Graph V L → List V → Graph V L
  | g, [] => g
  | g, v :: rest =>
    if alookup g.beg v = none then
      match dfsGo (g.gsize + 1) g (.visit v) with
      | some g' => dfsLoop g' rest
      | none => g
    else dfsLoop g rest

/-- `Graph.depth_first_search`: reset, then visit every not-yet-discovered
node in insertion order. -/
def Graph.depth_first_search (g : Graph V L) : Graph V L :=
  dfsLoop g.reset g.nodes

/-- `Graph.has_cycle`: run the traversal (it is rerun unconditionally), and
report whether any cycle was recorded.  The mutated graph is returned
explicitly. -/
def Graph.has_cycle (g : Graph V L) : Graph V L × Bool :=
  let g' := g.depth_first_search
  (g', decide (0 < (g'.cycles.getD []).length))

end DfsDefs

section StratDefs

variable {V : Type} {L : Type} [DecidableEq V] [DecidableEq L]

/-- Result of the stratification fixpoint loop: fuel exhaustion (never
reached on acyclic input, see `stratLoop_some`), the early `return None`, or
the fixpoint. -/
inductive StratRes (V : Type) where
  | fuelOut
  | bail
  | done (st : V → Nat)

/-- The inner `for edge in self.edges[node]` loop of `stratification`:
relax `stratum[node]`, track whether anything changed, and `return None` as
soon as a stratum exceeds the node count. -/
def passScan (labels : List L) (n : Nat) (u : V) :
    List (EdgeData V L) → (V → Nat) → Bool → Option ((V → Nat) × Bool)
  | [], st, ch => some (st, ch)
  | e :: rest, st, ch =>
    let old := st u
    let newv := if e.label ∈ labels then max old (1 + st e.node) else max old (st e.node)
    let st' := fun x => if x = u then newv else st x
    let ch' := ch || decide (¬old = newv)
    if n < newv then none else passScan labels n u rest st' ch'

/-- The `for node in self.edges` loop of one pass of `stratification`. -/
def passBuckets (labels : List L) (n : Nat) :
    List (V × List (EdgeData V L)) → (V → Nat) → Bool → Option ((V → Nat) × Bool)
  | [], st, ch => some (st, ch)
  | (u, es) :: rest, st, ch =>
    match passScan labels n u es st ch with
    | none => none
    | some (st', ch') => passBuckets labels n rest st' ch'

/-- The `while changes` loop of `stratification`, with fuel. -/
def stratLoop (labels : List L) (n : Nat) (buckets : List (V × List (EdgeData V L))) :
    Nat → (V → Nat) → StratRes V
  | 0, _ => .fuelOut
  | f + 1, st =>
    match passBuckets labels n buckets st false with
    | none => .bail
    | some (st', ch) => if ch then stratLoop labels n buckets f st' else .done st'

/-- `Graph.stratification`: every node starts in stratum `1`; relax over all
edges until a fixpoint; `None` as soon as any stratum exceeds the node
count.  The fuel `n*n + 2` is never exhausted on acyclic input
(`stratLoop_some`). -/
def Graph.stratification (g : Graph V L) (labels : List L) : Option (V → Nat) :=
  let n := g.nodes.length
  match stratLoop labels n g.edges (n * n + 2) (fun _ => 1) with
  | .done st => some st
  | _ => none

end StratDefs

section PathDefs

variable {V : Type} {L : Type} [DecidableEq V] [DecidableEq L]

/-- The edge `(a, e.node)` with label `e.label` is in the graph. -/
def Graph.edgeMem (g : Graph V L) (a : V) (e : EdgeData V L) : Prop :=
  ∃ b, alookup g.edges a = some b ∧ e ∈ b

/-- Directed path: a list of steps `(source, edge-data)` linking `u` to `w`. -/
def isPathG (g : Graph V L) : V → List (V × EdgeData V L) → V → Prop
  | u, [], w => u = w
  | u, s :: rest, w => u = s.1 ∧ g.edgeMem s.1 s.2 ∧ isPathG g s.2.node rest w

/-- Steps of a path whose label is one of the stratifying labels. -/
def labeledSteps (labels : List L) (p : List (V × EdgeData V L)) :
    List (V × EdgeData V L) :=
  p.filter (fun s => decide (s.2.label ∈ labels))

/-- A cycle passing through at least one edge with a stratifying label. -/
def CycleThruLabeled (g : Graph V L) (labels : List L) : Prop :=
  ∃ u p, isPathG g u p u ∧ p ≠ [] ∧ ∃ s ∈ p, s.2.label ∈ labels

/-- `w` is reachable from `u` by directed edges. -/
def ReachableG (g : Graph V L) (u w : V) : Prop := ∃ p, isPathG g u p w

/-- Interval `[b2, e2]` nests inside `[b1, e1]`. -/
def IntervalNested (b1 e1 b2 e2 : Nat) : Prop := b1 ≤ b2 ∧ e2 ≤ e1

/-- Two DFS discovery/finish intervals are disjoint or nested. -/
def IntervalsLaminar (b1 e1 b2 e2 : Nat) : Prop :=
  e1 < b2 ∨ e2 < b1 ∨ IntervalNested b1 e1 b2 e2 ∨ IntervalNested b2 e2 b1 e1

/-- Invariant of the stratification fixpoint loop: every stratum is at least
`1`, and each node's stratum is justified by a path out of it whose count of
stratifying-labeled steps is at least the stratum minus one. -/
def StratInv (g : Graph V L) (labels : List L) (st : V → Nat) : Prop :=
  (∀ v, 1 ≤ st v) ∧
    ∀ v ∈ g.nodes, ∃ p w, isPathG g v p w
      ∧ st v ≤ (labeledSteps labels p).length + 1

/-- Total stratum mass over the nodes: the termination measure of the
`while changes` loop of `stratification`. -/
def sumStrat (g : Graph V L) (st : V → Nat) : Nat := (g.nodes.map st).sum

/-- The relaxed stratum `max(stratum[node], (1 +) stratum[edge.node])`
computed for one edge inside `passScan`. -/
def relaxVal (labels : List L) (st : V → Nat) (u : V) (e : EdgeData V L) : Nat :=
  if e.label ∈ labels then max (st u) (1 + st e.node)
  else max (st u) (st e.node)

/-- Remaining DFS work: every unvisited node costs two counter steps plus one
step per outgoing edge. -/
def Graph.unvisitedSize (g : Graph V L) : Nat :=
  ((g.nodes.filter (fun w => (alookup g.beg w).isNone)).map
    (fun w => 2 + (g.adj w).length)).sum

/-- What one completed (sub)call of the embedded `dfs` does to the state:
the graph structure is unchanged, the counter only grows, assigned
timestamps persist, every node undiscovered at entry is either untouched or
discovered-and-finished with its whole interval inside the call's counter
window, `end` times are only assigned to nodes discovered within the call,
and the intervals completed within the call are pairwise disjoint or
nested. -/
def DfsStep (g g' : Graph V L) : Prop :=
  g'.nodes = g.nodes ∧ g'.edges = g.edges ∧ g.counter ≤ g'.counter
  ∧ (∀ w b, alookup g.beg w = some b → alookup g'.beg w = some b)
  ∧ (∀ w e2, alookup g.fin w = some e2 → alookup g'.fin w = some e2)
  ∧ (∀ w, alookup g.beg w = none →
      (alookup g'.beg w = none ∧ alookup g'.fin w = alookup g.fin w)
      ∨ (∃ b e2, alookup g'.beg w = some b ∧ alookup g'.fin w = some e2
           ∧ g.counter ≤ b ∧ b < e2 ∧ e2 < g'.counter))
  ∧ (∀ w, alookup g.beg w ≠ none → alookup g'.fin w = alookup g.fin w)
  ∧ (∀ w1 w2 b1 e1 b2 e2,
      alookup g.beg w1 = none → alookup g.beg w2 = none →
      alookup g'.beg w1 = some b1 → alookup g'.fin w1 = some e1 →
      alookup g'.beg w2 = some b2 → alookup g'.fin w2 = some e2 →
      IntervalsLaminar b1 e1 b2 e2)

end PathDefs

section RuleDefs

/-- An argument of an atom: variable or constant.  (`congress.datalog.compile`
is outside the analysed sources; the shape is the one required by the spec's
data model.) -/
inductive Term where
  | var (s : String)
  | cst (s : String)
deriving DecidableEq, Repr

/-- Modelled from the spec: `Atom` of the external `compile` module — a table
identifier plus an ordered argument sequence, immutable, structural
equality. -/
structure Atom where
  table : String
  args : List Term
deriving DecidableEq, Repr

/-- Modelled from the spec: a body literal — an atom with a polarity. -/
structure Literal where
  atom : Atom
  negated : Bool
deriving DecidableEq, Repr

/-- Modelled from the spec: `compile.Rule` — head atom plus body literals,
with structural equality (source provenance is ignored by equality). -/
structure Rule where
  head : Atom
  body : List Literal
deriving DecidableEq, Repr

/-- A formula handled by the theory: a bare atom or a rule. -/
inductive Formula where
  | atom (a : Atom)
  | rule (r : Rule)
deriving DecidableEq, Repr

/-- `compile.is_atom`. -/
def Formula.is_atom : Formula → Bool
  | .atom _ => true
  | .rule _ => false

/-- The coercion performed by `_insert_actual`/`_delete_actual`: a bare atom
becomes a rule with an empty body. -/
def Formula.toRule : Formula → Rule
  | .atom a => ⟨a, []⟩
  | .rule r => r

/-- `compile.Event`: one requested mutation. -/
structure Event where
  formula : Formula
  insert : Bool
deriving DecidableEq, Repr

/-- Modelled from the spec: `RuleSet` (`congress/datalog/ruleset.py` is not
among the analysed sources) — an index from table name to the list of rules
whose head targets that table, with structural membership. -/
structure RuleSet where
  buckets : List (String × List Rule)
deriving DecidableEq, Repr

/-- Modelled from the spec: the empty `RuleSet`. -/
def RuleSet.empty : RuleSet := ⟨[]⟩

/-- Modelled from the spec: `add_rule(table, rule) -> changed`; duplicate
insertion of an identical rule is a no-op that reports no change. -/
def RuleSet.add_rule (rs : RuleSet) (t : String) (r : Rule) : RuleSet × Bool :=
  match alookup rs.buckets t with
  | some l =>
    if r ∈ l then (rs, false) else (⟨aupdate rs.buckets t (l ++ [r])⟩, true)
  | none => (⟨rs.buckets ++ [(t, [r])]⟩, true)

/-- Modelled from the spec: `discard_rule(table, rule) -> changed`; removing
an absent rule is a no-op that reports no change. -/
def RuleSet.discard_rule (rs : RuleSet) (t : String) (r : Rule) : RuleSet × Bool :=
  match alookup rs.buckets t with
  | some l =>
    if r ∈ l then (⟨aupdate rs.buckets t (l.erase r)⟩, true) else (rs, false)
  | none => (rs, false)

/-- Modelled from the spec: `get_rules(table)` (unfiltered form). -/
def RuleSet.get_rules (rs : RuleSet) (t : String) : List Rule :=
  (alookup rs.buckets t).getD []

/-- Modelled from the spec: `keys()` — iteration over table names never
includes a table with zero rules. -/
def RuleSet.keys (rs : RuleSet) : List String :=
  (rs.buckets.filter (fun p => !p.2.isEmpty)).map Prod.fst

/-- Total number of stored rules. -/
def RuleSet.ruleCount (rs : RuleSet) : Nat :=
  (rs.buckets.map (fun p => p.2.length)).sum

/-- All stored rules, bucket by bucket. -/
def RuleSet.allRules (rs : RuleSet) : List Rule :=
  (rs.buckets.map Prod.snd).flatten

/-- `NonrecursiveRuleTheory._insert_actual`. -/
def insert_actual (rs : RuleSet) (f : Formula) : RuleSet × Bool :=
  let r := f.toRule
  rs.add_rule r.head.table r

/-- `NonrecursiveRuleTheory._delete_actual`. -/
def delete_actual (rs : RuleSet) (f : Formula) : RuleSet × Bool :=
  let r := f.toRule
  rs.discard_rule r.head.table r

/-- `NonrecursiveRuleTheory.update`.  `reorder` embeds the external
`compile.reorder_for_safety`, which may raise (`.error`); an exception
propagates out of the loop (the `except` clause only logs and re-raises),
the events already applied stay applied, and the collected change list of
the failed call is never returned. -/
def update (reorder : Formula → Except String Formula) :
    RuleSet → List Event → RuleSet × Except String (List Event)
  | rs, [] => (rs, .ok [])
  | rs, e :: rest =>
    match reorder e.formula with
    | .error msg => (rs, .error msg)
    | .ok f =>
      let p := if e.insert then insert_actual rs f else delete_actual rs f
      match update reorder p.1 rest with
      | (rsf, .ok out) => (rsf, .ok (if p.2 then e :: out else out))
      | (rsf, .error msg) => (rsf, .error msg)

/-- Lift a total safety-reordering to the `Except` interface. -/
def okf (ρ : Formula → Formula) : Formula → Except String Formula :=
  fun f => .ok (ρ f)

/-- One event applied to the rule set (after safety reordering), returning
the new state and whether the store changed. -/
def applyEvent (ρ : Formula → Formula) (rs : RuleSet) (e : Event) : RuleSet × Bool :=
  if e.insert then insert_actual rs (ρ e.formula) else delete_actual rs (ρ e.formula)

/-- State after applying a batch of events (total reordering). -/
def applyEvents (ρ : Formula → Formula) : RuleSet → List Event → RuleSet
  | rs, [] => rs
  | rs, e :: rest => applyEvents ρ (applyEvent ρ rs e).1 rest

/-- Follows the spec's words (§4.3): the subsequence, in order, of those
events whose underlying `RuleSet` operation reported an actual change. -/
def effectiveEvents (ρ : Formula → Formula) : RuleSet → List Event → List Event
  | _, [] => []
  | rs, e :: rest =>
    let p := applyEvent ρ rs e
    if p.2 then e :: effectiveEvents ρ p.1 rest else effectiveEvents ρ p.1 rest

/-- State reached when `update` processes events until the first failing
event: events before the failure are applied, the rest are not. -/
def applyUntilError (reorder : Formula → Except String Formula) :
    RuleSet → List Event → RuleSet
  | rs, [] => rs
  | rs, e :: rest =>
    match reorder e.formula with
    | .error _ => rs
    | .ok f =>
      applyUntilError reorder (if e.insert then insert_actual rs f else delete_actual rs f).1 rest

/-- `NonrecursiveRuleTheory.define`: `empty()` (clear everything) then insert
the given rules as one batch of events. -/
def defineRules (reorder : Formula → Except String Formula) (rules : List Rule) :
    RuleSet × Except String (List Event) :=
  update reorder RuleSet.empty (rules.map (fun r => ⟨.rule r, true⟩))

/-- `NonrecursiveRuleTheory.content` with `tablenames=None`. -/
def content (rs : RuleSet) : List Rule :=
  rs.keys.foldl (fun acc t => acc ++ rs.get_rules t) []

end RuleDefs

section InvariantDefs

variable {V : Type} {L : Type} [DecidableEq V] [DecidableEq L]

/-- The representation invariant maintained by the `BagGraph` operations:
dict keys are duplicate-free, a node is physically present exactly when it
has a reference count entry, and all stored reference counts are strictly
positive. -/
def BagInv (b : BagGraph V L) : Prop :=
  b.G.nodes.Nodup
  ∧ (b.nrc.map Prod.fst).Nodup
  ∧ (b.erc.map Prod.fst).Nodup
  ∧ (∀ v : V, v ∈ b.G.nodes ↔ (alookup b.nrc v).isSome)
  ∧ (∀ p ∈ b.nrc, 0 < p.2)
  ∧ (∀ p ∈ b.erc, 0 < p.2)

end InvariantDefs

section ConcreteExamples

/-- Edges `a→b`, `b→c`, `c→a` with `a,b,c = 0,1,2` (scenario of §8). -/
def exGraphCycle3 : Graph Nat Unit :=
  ((Graph.empty.add_edge 0 1 ()).add_edge 1 2 ()).add_edge 2 0 ()

/-- Node `0` added first, then edge `1 → 0`: node `0` is visited in an
earlier DFS tree than `1`. -/
def exGraphDfsCex : Graph Nat Unit := ((Graph.empty.add_node 0).1.add_edge 1 0 ())

/-- A self-loop on node `0`. -/
def exGraphSelfLoop : Graph Nat Unit := Graph.empty.add_edge 0 0 ()

/-- A single edge `0 → 1`. -/
def exGraphEdge01 : Graph Nat Unit := Graph.empty.add_edge 0 1 ()

/-- A bag graph already containing one copy of edge `(0, 1)`. -/
def exBagEdge : BagGraph Nat Unit := BagGraph.empty.add_edge 0 1 ()

/-- Stratifying edge `0 → 1` with label `1`, no cycle. -/
def exStratAcyclic : Graph Nat Nat := Graph.empty.add_edge 0 1 1

/-- The `{p, q}` negation cycle of §8: both edges carry the stratifying
label. -/
def exStratCycle : Graph Nat Nat := (Graph.empty.add_edge 0 1 1).add_edge 1 0 1

/-- The fact `p()` as a rule. -/
def exRuleP : Rule := ⟨⟨"p", []⟩, []⟩

/-- The rule `q() :- p()`. -/
def exRuleQ : Rule := ⟨⟨"q", []⟩, [⟨⟨"p", []⟩, false⟩]⟩

/-- Insertion event for `p()`. -/
def exEventInsP : Event := ⟨.rule exRuleP, true⟩

/-- A safety-reordering that fails exactly on formulas whose head table is
`"bad"`. -/
def exReorder : Formula → Except String Formula :=
  fun f => if f.toRule.head.table = "bad" then .error "unsafe" else .ok f

/-- An event the reordering step rejects. -/
def exEventBad : Event := ⟨.atom ⟨"bad", []⟩, true⟩

end ConcreteExamples

section AssocLemmas

variable {α : Type} {β : Type} [DecidableEq α]

theorem alookup_aupdate_self (l : List (α × β)) (a : α) (b : β) :
    alookup (aupdate l a b) a = some b := by
  induction l with
  | nil => simp [aupdate, alookup]
  | cons p r ih =>
    obtain ⟨k, v⟩ := p
    by_cases h : k = a
    · simp [aupdate, h, alookup]
    · simp [aupdate, h, alookup, ih]

theorem alookup_aupdate_ne (l : List (α × β)) (a a' : α) (b : β) (h : a ≠ a') :
    alookup (aupdate l a b) a' = alookup l a' := by
  induction l with
  | nil => simp [aupdate, alookup, h]
  | cons p r ih =>
    obtain ⟨k, v⟩ := p
    by_cases hk : k = a
    · subst hk
      simp [aupdate, alookup, h, ih]
    · simp only [aupdate, if_neg hk]
      by_cases hk' : k = a'
      · simp [alookup, hk']
      · simp [alookup, hk', ih]

theorem alookup_aerase_ne (l : List (α × β)) (a a' : α) (h : a ≠ a') :
    alookup (aerase l a) a' = alookup l a' := by
  induction l with
  | nil => simp [aerase]
  | cons p r ih =>
    obtain ⟨k, v⟩ := p
    by_cases hk : k = a
    · subst hk
      simp [aerase, alookup, h]
    · simp only [aerase, if_neg hk]
      by_cases hk' : k = a'
      · simp [alookup, hk']
      · simp [alookup, hk', ih]

theorem alookup_eq_none_of_not_mem_keys (l : List (α × β)) (a : α)
    (h : a ∉ l.map Prod.fst) : alookup l a = none := by
  induction l with
  | nil => rfl
  | cons p r ih =>
    obtain ⟨k, v⟩ := p
    simp only [List.map_cons, List.mem_cons] at h
    push_neg at h
    have hne : ¬k = a := fun he => h.1 he.symm
    simp [alookup, hne, ih h.2]

theorem alookup_aerase_self (l : List (α × β)) (a : α)
    (h : (l.map Prod.fst).Nodup) : alookup (aerase l a) a = none := by
  induction l with
  | nil => simp [aerase, alookup]
  | cons p r ih =>
    obtain ⟨k, v⟩ := p
    simp only [List.map_cons, List.nodup_cons] at h
    by_cases hk : k = a
    · subst hk
      simp only [aerase, if_pos rfl]
      exact alookup_eq_none_of_not_mem_keys r k h.1
    · simp only [aerase, if_neg hk, alookup, if_neg hk]
      exact ih h.2

theorem alookup_mem (l : List (α × β)) (a : α) (c : β)
    (h : alookup l a = some c) : (a, c) ∈ l := by
  induction l with
  | nil => simp [alookup] at h
  | cons p r ih =>
    obtain ⟨k, v⟩ := p
    by_cases hk : k = a
    · subst hk
      have hv : v = c := by simpa [alookup] using h
      subst hv
      exact List.mem_cons_self _ _
    · simp only [alookup, if_neg hk] at h
      exact List.mem_cons_of_mem _ (ih h)

theorem mem_aupdate (l : List (α × β)) (a : α) (b : β) (p : α × β)
    (h : p ∈ aupdate l a b) : p = (a, b) ∨ p ∈ l := by
  induction l with
  | nil => simpa [aupdate] using h
  | cons q r ih =>
    obtain ⟨k, v⟩ := q
    by_cases hk : k = a
    · subst hk
      simp only [aupdate, eq_self_iff_true, if_true, List.mem_cons] at h
      rcases h with h | h
      · exact Or.inl h
      · exact Or.inr (List.mem_cons_of_mem _ h)
    · simp only [aupdate, if_neg hk, List.mem_cons] at h
      rcases h with h | h
      · exact Or.inr (by simp [h])
      · rcases ih h with h2 | h2
        · exact Or.inl h2
        · exact Or.inr (List.mem_cons_of_mem _ h2)

theorem mem_aerase (l : List (α × β)) (a : α) (p : α × β)
    (h : p ∈ aerase l a) : p ∈ l := by
  induction l with
  | nil => simp [aerase] at h
  | cons q r ih =>
    obtain ⟨k, v⟩ := q
    by_cases hk : k = a
    · simp only [aerase, if_pos hk] at h
      exact List.mem_cons_of_mem _ h
    · simp only [aerase, if_neg hk, List.mem_cons] at h
      rcases h with h | h
      · simp [h]
      · exact List.mem_cons_of_mem _ (ih h)

theorem keys_aupdate (l : List (α × β)) (a : α) (b : β) :
    (aupdate l a b).map Prod.fst = if a ∈ l.map Prod.fst then l.map Prod.fst
      else l.map Prod.fst ++ [a] := by
  induction l with
  | nil => simp [aupdate]
  | cons q r ih =>
    obtain ⟨k, v⟩ := q
    by_cases hk : k = a
    · subst hk
      simp [aupdate]
    · have hne : ¬a = k := fun he => hk he.symm
      simp only [aupdate, if_neg hk, List.map_cons, ih, List.mem_cons]
      by_cases hm : a ∈ r.map Prod.fst
      · simp [hm, hne]
      · simp [hm, hne]

theorem keys_aupdate_nodup (l : List (α × β)) (a : α) (b : β)
    (h : (l.map Prod.fst).Nodup) : ((aupdate l a b).map Prod.fst).Nodup := by
  rw [keys_aupdate]
  split
  · exact h
  · next hm =>
      rw [List.nodup_append]
      refine ⟨h, List.nodup_singleton a, ?_⟩
      intro x hx hx2
      simp only [List.mem_singleton] at hx2
      subst hx2
      exact hm hx

theorem keys_aerase_sublist (l : List (α × β)) (a : α) :
    ((aerase l a).map Prod.fst).Sublist (l.map Prod.fst) := by
  induction l with
  | nil => simp [aerase]
  | cons q r ih =>
    obtain ⟨k, v⟩ := q
    by_cases hk : k = a
    · simp only [aerase, if_pos hk, List.map_cons]
      exact List.sublist_cons_self k (r.map Prod.fst)
    · simp only [aerase, if_neg hk, List.map_cons]
      exact ih.cons₂ k

theorem keys_aerase_nodup (l : List (α × β)) (a : α)
    (h : (l.map Prod.fst).Nodup) : ((aerase l a).map Prod.fst).Nodup :=
  (keys_aerase_sublist l a).nodup h

end AssocLemmas

section GraphTheorems

variable {V : Type} {L : Type} [DecidableEq V] [DecidableEq L]

theorem add_node_fst_cycles (g : Graph V L) (v : V) :
    (g.add_node v).1.cycles = g.cycles := by
  unfold Graph.add_node
  split <;> rfl

theorem add_edge_cycles (g : Graph V L) (v1 v2 : V) (l : L) :
    (g.add_edge v1 v2 l).cycles = none := by
  have h1 : ((({ g with cycles := none } : Graph V L).add_node v1).1.add_node v2).1.cycles
      = none := by
    rw [add_node_fst_cycles, add_node_fst_cycles]
  simp only [Graph.add_edge]
  split
  · split
    · exact h1
    · exact h1
  · exact h1

theorem foldl_add_node_cycles (l : List V) (g : Graph V L)
    (h : g.cycles = none) :
    (l.foldl (fun a v => (a.add_node v).1) g).cycles = none := by
  induction l generalizing g with
  | nil => exact h
  | cons v r ih => exact ih _ (by rw [add_node_fst_cycles]; exact h)

theorem foldl_add_edge_cycles (l : List (EdgeData V L)) (u : V) (g : Graph V L)
    (h : g.cycles = none) :
    (l.foldl (fun a e => a.add_edge u e.node e.label) g).cycles = none := by
  induction l generalizing g with
  | nil => exact h
  | cons e r ih => exact ih _ (add_edge_cycles _ _ _ _)

theorem foldl_buckets_add_edge_cycles (l : List (V × List (EdgeData V L)))
    (g : Graph V L) (h : g.cycles = none) :
    (l.foldl (fun a p => p.2.foldl (fun a2 e => a2.add_edge p.1 e.node e.label) a) g).cycles
      = none := by
  induction l generalizing g with
  | nil => exact h
  | cons p r ih => exact ih _ (foldl_add_edge_cycles _ _ _ h)

/-- C9 (amended): `add_edge`, a successful `delete_edge`, and in-place union
with a non-empty operand clear the cached cycle state; `add_node` and
`delete_node` leave the cache untouched (they do not invalidate it). -/
theorem claim9_cache_invalidation (g other : Graph V L) (v v1 v2 : V) (l : L) :
    (g.add_edge v1 v2 l).cycles = none
    ∧ (g.edge_in v1 v2 l = true → (g.delete_edge v1 v2 l).cycles = none)
    ∧ (other.glen ≠ 0 → (g.iorUnion other).cycles = none)
    ∧ (g.add_node v).1.cycles = g.cycles
    ∧ (g.delete_node v).cycles = g.cycles := by
  refine ⟨add_edge_cycles g v1 v2 l, ?_, ?_, add_node_fst_cycles g v, ?_⟩
  · intro h
    unfold Graph.edge_in at h
    unfold Graph.delete_edge
    cases he : alookup g.edges v1 with
    | none => rw [he] at h; simp at h
    | some b =>
      rw [he] at h
      simp only [decide_eq_true_eq] at h
      simp [h]
  · intro h
    unfold Graph.iorUnion
    rw [if_neg h]
    exact foldl_buckets_add_edge_cycles _ _ (foldl_add_node_cycles _ _ rfl)
  · unfold Graph.delete_node
    split <;> rfl

/-- C9 witness: the three invalidating mutations at a concrete graph. -/
theorem claim9_cache_invalidation_witness :
    (exGraphEdge01.edge_in 0 1 () = true → (exGraphEdge01.delete_edge 0 1 ()).cycles = none)
    ∧ (exGraphEdge01.glen ≠ 0 → (exGraphSelfLoop.iorUnion exGraphEdge01).cycles = none) := by
  refine ⟨?_, ?_⟩
  · exact (claim9_cache_invalidation exGraphEdge01 exGraphEdge01 0 0 1 ()).2.1
  · exact fun h => ((claim9_cache_invalidation exGraphSelfLoop exGraphEdge01 0 0 1 ()).2.2.1) h

/-- C9 counterexample: after `has_cycle` fills the cache on a self-loop
graph, the mutation `add_node 1` leaves the cached cycle list in place
(neither cleared to `None` nor emptied), contradicting the claim that every
node mutation invalidates the cache. -/
theorem claim9_counterexample :
    (exGraphSelfLoop.has_cycle.1.add_node 1).1.cycles = some [[0, 0]]
    ∧ (exGraphSelfLoop.has_cycle.1.add_node 1).1.cycles ≠ none
    ∧ (exGraphSelfLoop.has_cycle.1.add_node 1).1.cycles ≠ some [] := by
  refine ⟨by decide, by decide, by decide⟩

/-- C8 (amended): when a node's deletion takes effect, the node entry and its
list of outgoing edges are removed, while edges of other nodes — including
edges pointing into the deleted node — and all other nodes are unchanged;
for a `BagGraph` the same physical removal happens exactly when the node's
reference count reaches zero. -/
theorem claim8_delete_node_frame (g : Graph V L) (v : V) (hwf : g.WF)
    (hv : v ∈ g.nodes) :
    (g.delete_node v).node_in v = false
    ∧ (∀ w, w ≠ v → (g.delete_node v).node_in w = g.node_in w)
    ∧ (∀ w l2, (g.delete_node v).edge_in v w l2 = false)
    ∧ (∀ u w l2, u ≠ v → (g.delete_node v).edge_in u w l2 = g.edge_in u w l2)
    ∧ (∀ bg : BagGraph V L, alookup bg.nrc v = some 1 →
        (bg.delete_node v).G = bg.G.delete_node v) := by
  obtain ⟨hnd, hknd, hcl⟩ := hwf
  unfold Graph.delete_node
  rw [if_pos hv]
  refine ⟨?_, ?_, ?_, ?_, ?_⟩
  · simp [Graph.node_in, List.Nodup.mem_erase_iff hnd]
  · intro w hw
    simp [Graph.node_in, List.mem_erase_of_ne hw]
  · intro w l2
    simp [Graph.edge_in, alookup_aerase_self g.edges v hknd]
  · intro u w l2 hu
    simp [Graph.edge_in, alookup_aerase_ne g.edges v u (fun he => hu he.symm)]
  · intro bg hbg
    unfold BagGraph.delete_node
    rw [hbg]
    norm_num [Graph.delete_node]

/-- C8 witness: deleting node `1` from the concrete graph `0 → 1`. -/
theorem claim8_delete_node_frame_witness :
    (exGraphEdge01.delete_node 1).node_in 1 = false
    ∧ (exGraphEdge01.delete_node 1).edge_in 1 0 () = false := by
  have h := claim8_delete_node_frame exGraphEdge01 1 (by decide) (by decide)
  exact ⟨h.1, h.2.2.1 0 ()⟩

/-- C8 counterexample: deleting node `1` from the graph with single edge
`0 → 1` takes effect (the node is gone) yet the edge pointing into it is
not removed, contradicting the claim that all incident edges are removed. -/
theorem claim8_counterexample :
    (exGraphEdge01.delete_node 1).node_in 1 = false
    ∧ (exGraphEdge01.delete_node 1).edge_in 0 1 () = true := by
  refine ⟨by decide, by decide⟩

end GraphTheorems

section BagTheorems

variable {V : Type} {L : Type} [DecidableEq V] [DecidableEq L]

theorem insertEdgeData_nodes (g : Graph V L) (v1 v2 : V) (l : L) :
    (g.insertEdgeData v1 v2 l).nodes = g.nodes := by
  unfold Graph.insertEdgeData
  split
  · split <;> rfl
  · rfl

theorem delete_edge_nodes (g : Graph V L) (v1 v2 : V) (l : L) :
    (g.delete_edge v1 v2 l).nodes = g.nodes := by
  unfold Graph.delete_edge
  split
  · rfl
  · split <;> rfl

theorem bag_add_node_eq_some (b : BagGraph V L) (v : V) (c : Int)
    (hc : alookup b.nrc v = some c) :
    b.add_node v = ⟨(b.G.add_node v).1, aupdate b.nrc v (c + 1), b.erc⟩ := by
  unfold BagGraph.add_node
  simp only [hc]

theorem bag_add_node_eq_none (b : BagGraph V L) (v : V)
    (hc : alookup b.nrc v = none) :
    b.add_node v = ⟨(b.G.add_node v).1, aupdate b.nrc v 1, b.erc⟩ := by
  unfold BagGraph.add_node
  simp only [hc]

theorem bag_delete_node_eq_none (b : BagGraph V L) (v : V)
    (hc : alookup b.nrc v = none) : b.delete_node v = b := by
  unfold BagGraph.delete_node
  simp only [hc]

theorem bag_delete_node_eq_zero (b : BagGraph V L) (v : V) (c : Int)
    (hc : alookup b.nrc v = some c) (hz : c - 1 = 0) :
    b.delete_node v = ⟨b.G.delete_node v, aerase b.nrc v, b.erc⟩ := by
  unfold BagGraph.delete_node
  simp only [hc, if_pos hz]

theorem bag_delete_node_eq_pos (b : BagGraph V L) (v : V) (c : Int)
    (hc : alookup b.nrc v = some c) (hz : ¬c - 1 = 0) :
    b.delete_node v = ⟨b.G, aupdate b.nrc v (c - 1), b.erc⟩ := by
  unfold BagGraph.delete_node
  simp only [hc, if_neg hz]

theorem bag_add_edge_eq_some (b : BagGraph V L) (v1 v2 : V) (l : L) (c : Int)
    (hc : alookup b.erc (v1, v2, l) = some c) :
    b.add_edge v1 v2 l = ⟨(b.addBothNodes v1 v2).G.insertEdgeData v1 v2 l,
      (b.addBothNodes v1 v2).nrc, aupdate b.erc (v1, v2, l) (c + 1)⟩ := by
  unfold BagGraph.add_edge
  simp only [hc]

theorem bag_add_edge_eq_none (b : BagGraph V L) (v1 v2 : V) (l : L)
    (hc : alookup b.erc (v1, v2, l) = none) :
    b.add_edge v1 v2 l = ⟨(b.addBothNodes v1 v2).G.insertEdgeData v1 v2 l,
      (b.addBothNodes v1 v2).nrc, aupdate b.erc (v1, v2, l) 1⟩ := by
  unfold BagGraph.add_edge
  simp only [hc]

theorem bag_delete_edge_eq_none (b : BagGraph V L) (v1 v2 : V) (l : L)
    (hc : alookup b.erc (v1, v2, l) = none) : b.delete_edge v1 v2 l = b := by
  unfold BagGraph.delete_edge
  simp only [hc]

theorem bag_delete_edge_eq_zero (b : BagGraph V L) (v1 v2 : V) (l : L) (c : Int)
    (hc : alookup b.erc (v1, v2, l) = some c) (hz : c - 1 = 0) :
    b.delete_edge v1 v2 l = ⟨(b.delBothNodes v1 v2).G.delete_edge v1 v2 l,
      (b.delBothNodes v1 v2).nrc, aerase b.erc (v1, v2, l)⟩ := by
  unfold BagGraph.delete_edge
  simp only [hc, if_pos hz]

theorem bag_delete_edge_eq_pos (b : BagGraph V L) (v1 v2 : V) (l : L) (c : Int)
    (hc : alookup b.erc (v1, v2, l) = some c) (hz : ¬c - 1 = 0) :
    b.delete_edge v1 v2 l = ⟨(b.delBothNodes v1 v2).G,
      (b.delBothNodes v1 v2).nrc, aupdate b.erc (v1, v2, l) (c - 1)⟩ := by
  unfold BagGraph.delete_edge
  simp only [hc, if_neg hz]

theorem bag_add_node_erc (b : BagGraph V L) (v : V) :
    (b.add_node v).erc = b.erc := by
  unfold BagGraph.add_node
  cases alookup b.nrc v <;> rfl

theorem bag_delete_node_erc (b : BagGraph V L) (v : V) :
    (b.delete_node v).erc = b.erc := by
  unfold BagGraph.delete_node
  cases alookup b.nrc v with
  | none => rfl
  | some c =>
    by_cases hz : c - 1 = 0
    · simp only [if_pos hz]
    · simp only [if_neg hz]

theorem bagInv_add_node (b : BagGraph V L) (v : V) (h : BagInv b) :
    BagInv (b.add_node v) := by
  unfold BagInv at h ⊢
  obtain ⟨hnd, hknd, hke, hal, hpn, hpe⟩ := h
  cases hc : alookup b.nrc v with
  | some c =>
    have hvmem : v ∈ b.G.nodes := (hal v).mpr (by simp [hc])
    have hG : (b.G.add_node v).1 = b.G := by
      unfold Graph.add_node; rw [if_pos hvmem]
    rw [bag_add_node_eq_some b v c hc, hG]
    refine ⟨hnd, keys_aupdate_nodup _ _ _ hknd, hke, ?_, ?_, hpe⟩
    · intro w
      by_cases hw : w = v
      · subst hw
        simp [hvmem, alookup_aupdate_self]
      · rw [alookup_aupdate_ne _ _ _ _ (fun he => hw he.symm)]
        exact hal w
    · intro p hp
      rcases mem_aupdate _ _ _ _ hp with h2 | h2
      · rw [h2]
        have hcpos := hpn (v, c) (alookup_mem _ _ _ hc)
        simp only at hcpos ⊢
        omega
      · exact hpn p h2
  | none =>
    have hvnot : v ∉ b.G.nodes := by
      intro hmem
      have := (hal v).mp hmem
      simp [hc] at this
    have hG : (b.G.add_node v).1 = { b.G with nodes := b.G.nodes ++ [v] } := by
      unfold Graph.add_node; rw [if_neg hvnot]
    rw [bag_add_node_eq_none b v hc, hG]
    refine ⟨?_, keys_aupdate_nodup _ _ _ hknd, hke, ?_, ?_, hpe⟩
    · rw [List.nodup_append]
      exact ⟨hnd, List.nodup_singleton v,
        fun x hx hx2 => absurd ((List.mem_singleton.mp hx2) ▸ hx) hvnot⟩
    · intro w
      by_cases hw : w = v
      · subst hw
        simp [alookup_aupdate_self]
      · rw [alookup_aupdate_ne _ _ _ _ (fun he => hw he.symm)]
        simp only [List.mem_append, List.mem_singleton]
        constructor
        · rintro (hm | he)
          · exact (hal w).mp hm
          · exact absurd he hw
        · intro hs
          exact Or.inl ((hal w).mpr hs)
    · intro p hp
      rcases mem_aupdate _ _ _ _ hp with h2 | h2
      · rw [h2]; norm_num
      · exact hpn p h2

theorem bagInv_delete_node (b : BagGraph V L) (v : V) (h : BagInv b) :
    BagInv (b.delete_node v) := by
  unfold BagInv at h ⊢
  obtain ⟨hnd, hknd, hke, hal, hpn, hpe⟩ := h
  cases hc : alookup b.nrc v with
  | none =>
    rw [bag_delete_node_eq_none b v hc]
    exact ⟨hnd, hknd, hke, hal, hpn, hpe⟩
  | some c =>
    have hvmem : v ∈ b.G.nodes := (hal v).mpr (by simp [hc])
    by_cases hz : c - 1 = 0
    · rw [bag_delete_node_eq_zero b v c hc hz]
      have hG : b.G.delete_node v = { b.G with
          nodes := b.G.nodes.erase v,
          edges := aerase b.G.edges v,
          beg := aerase b.G.beg v,
          fin := aerase b.G.fin v } := by
        unfold Graph.delete_node; rw [if_pos hvmem]
      rw [hG]
      refine ⟨hnd.erase v, keys_aerase_nodup _ _ hknd, hke, ?_, ?_, hpe⟩
      · intro w
        by_cases hw : w = v
        · subst hw
          simp [List.Nodup.mem_erase_iff hnd, alookup_aerase_self _ _ hknd]
        · rw [alookup_aerase_ne _ _ _ (fun he => hw he.symm)]
          rw [List.mem_erase_of_ne hw]
          exact hal w
      · intro p hp
        exact hpn p (mem_aerase _ _ _ hp)
    · rw [bag_delete_node_eq_pos b v c hc hz]
      refine ⟨hnd, keys_aupdate_nodup _ _ _ hknd, hke, ?_, ?_, hpe⟩
      · intro w
        by_cases hw : w = v
        · subst hw
          simp [hvmem, alookup_aupdate_self]
        · rw [alookup_aupdate_ne _ _ _ _ (fun he => hw he.symm)]
          exact hal w
      · intro p hp
        rcases mem_aupdate _ _ _ _ hp with h2 | h2
        · rw [h2]
          have hcpos := hpn (v, c) (alookup_mem _ _ _ hc)
          simp only at hcpos ⊢
          omega
        · exact hpn p h2

theorem bagInv_addBothNodes (b : BagGraph V L) (v1 v2 : V) (h : BagInv b) :
    BagInv (b.addBothNodes v1 v2) := by
  have h0 : BagInv (⟨{ b.G with cycles := none }, b.nrc, b.erc⟩ : BagGraph V L) := h
  exact bagInv_add_node _ v2 (bagInv_add_node _ v1 h0)

theorem addBothNodes_erc (b : BagGraph V L) (v1 v2 : V) :
    (b.addBothNodes v1 v2).erc = b.erc := by
  unfold BagGraph.addBothNodes
  rw [bag_add_node_erc, bag_add_node_erc]

theorem delBothNodes_erc (b : BagGraph V L) (v1 v2 : V) :
    (b.delBothNodes v1 v2).erc = b.erc := by
  unfold BagGraph.delBothNodes
  rw [bag_delete_node_erc, bag_delete_node_erc]

theorem bagInv_add_edge (b : BagGraph V L) (v1 v2 : V) (l : L) (h : BagInv b) :
    BagInv (b.add_edge v1 v2 l) := by
  have h2 := bagInv_addBothNodes b v1 v2 h
  obtain ⟨k1, k2, k3, k4, k5, k6⟩ := h2
  have herc := addBothNodes_erc b v1 v2
  cases hc : alookup b.erc (v1, v2, l) with
  | some c =>
    rw [bag_add_edge_eq_some b v1 v2 l c hc]
    refine ⟨?_, k2, ?_, ?_, k5, ?_⟩
    · rw [insertEdgeData_nodes]; exact k1
    · exact keys_aupdate_nodup _ _ _ (by rw [herc] at k3; exact k3)
    · intro w
      rw [insertEdgeData_nodes]
      exact k4 w
    · intro p hp
      rcases mem_aupdate _ _ _ _ hp with hh | hh
      · rw [hh]
        have hcpos := h.2.2.2.2.2 (_, c) (alookup_mem _ _ _ hc)
        simp only at hcpos ⊢
        omega
      · rw [herc] at k6
        exact k6 p hh
  | none =>
    rw [bag_add_edge_eq_none b v1 v2 l hc]
    refine ⟨?_, k2, ?_, ?_, k5, ?_⟩
    · rw [insertEdgeData_nodes]; exact k1
    · exact keys_aupdate_nodup _ _ _ (by rw [herc] at k3; exact k3)
    · intro w
      rw [insertEdgeData_nodes]
      exact k4 w
    · intro p hp
      rcases mem_aupdate _ _ _ _ hp with hh | hh
      · rw [hh]; norm_num
      · rw [herc] at k6
        exact k6 p hh

theorem bagInv_delete_edge (b : BagGraph V L) (v1 v2 : V) (l : L) (h : BagInv b) :
    BagInv (b.delete_edge v1 v2 l) := by
  have h2 : BagInv (b.delBothNodes v1 v2) :=
    bagInv_delete_node _ v2 (bagInv_delete_node _ v1 h)
  obtain ⟨k1, k2, k3, k4, k5, k6⟩ := h2
  have herc := delBothNodes_erc b v1 v2
  cases hc : alookup b.erc (v1, v2, l) with
  | none =>
    rw [bag_delete_edge_eq_none b v1 v2 l hc]
    exact h
  | some c =>
    by_cases hz : c - 1 = 0
    · rw [bag_delete_edge_eq_zero b v1 v2 l c hc hz]
      refine ⟨?_, k2, keys_aerase_nodup _ _ (by rw [herc] at k3; exact k3), ?_, k5, ?_⟩
      · rw [delete_edge_nodes]; exact k1
      · intro w
        rw [delete_edge_nodes]
        exact k4 w
      · intro p hp
        rw [herc] at k6
        exact k6 p (mem_aerase _ _ _ hp)
    · rw [bag_delete_edge_eq_pos b v1 v2 l c hc hz]
      refine ⟨k1, k2, keys_aupdate_nodup _ _ _ (by rw [herc] at k3; exact k3), k4, k5, ?_⟩
      intro p hp
      rcases mem_aupdate _ _ _ _ hp with hh | hh
      · rw [hh]
        have hcpos := h.2.2.2.2.2 (_, c) (alookup_mem _ _ _ hc)
        simp only at hcpos ⊢
        omega
      · rw [herc] at k6
        exact k6 p hh

theorem bagInv_empty : BagInv (BagGraph.empty : BagGraph V L) := by
  unfold BagInv BagGraph.empty Graph.empty
  refine ⟨List.nodup_nil, List.nodup_nil, List.nodup_nil, ?_, ?_, ?_⟩
  · intro v; simp [alookup]
  · intro p hp; simp at hp
  · intro p hp; simp at hp

theorem bagInv_applyOp (b : BagGraph V L) (op : BagOp V L) (h : BagInv b) :
    BagInv (b.applyOp op) := by
  cases op with
  | addN v => exact bagInv_add_node b v h
  | delN v => exact bagInv_delete_node b v h
  | addE v1 v2 l => exact bagInv_add_edge b v1 v2 l h
  | delE v1 v2 l => exact bagInv_delete_edge b v1 v2 l h

theorem bagInv_foldl (ops : List (BagOp V L)) (b : BagGraph V L) (h : BagInv b) :
    BagInv (ops.foldl BagGraph.applyOp b) := by
  induction ops generalizing b with
  | nil => exact h
  | cons op rest ih => exact ih _ (bagInv_applyOp b op h)

theorem bagInv_runOps (ops : List (BagOp V L)) : BagInv (BagGraph.runOps ops) :=
  bagInv_foldl ops BagGraph.empty bagInv_empty

/-- C10: in every `BagGraph` reachable from the empty graph by `add_node`,
`delete_node`, `add_edge`, `delete_edge`, all stored node and edge reference
counts are strictly positive (a count entry is removed, never left at zero or
negative, when its decrement reaches zero), and deleting an absent node or
edge changes nothing. -/
theorem claim10_refcount_invariant :
    (∀ ops : List (BagOp V L),
      (∀ p ∈ (BagGraph.runOps ops).nrc, 0 < p.2)
      ∧ ∀ p ∈ (BagGraph.runOps ops).erc, 0 < p.2)
    ∧ (∀ b : BagGraph V L, ∀ v : V, b.node_in v = false → b.delete_node v = b)
    ∧ (∀ b : BagGraph V L, ∀ v1 v2 : V, ∀ l : L, b.edge_in v1 v2 l = false →
        b.delete_edge v1 v2 l = b) := by
  refine ⟨?_, ?_, ?_⟩
  · intro ops
    have h := bagInv_runOps (V := V) (L := L) ops
    exact ⟨h.2.2.2.2.1, h.2.2.2.2.2⟩
  · intro b v hv
    unfold BagGraph.node_in at hv
    have hnone : alookup b.nrc v = none := by
      cases hc : alookup b.nrc v with
      | none => rfl
      | some c => rw [hc] at hv; simp at hv
    exact bag_delete_node_eq_none b v hnone
  · intro b v1 v2 l hv
    unfold BagGraph.edge_in at hv
    have hnone : alookup b.erc (v1, v2, l) = none := by
      cases hc : alookup b.erc (v1, v2, l) with
      | none => rfl
      | some c => rw [hc] at hv; simp at hv
    exact bag_delete_edge_eq_none b v1 v2 l hnone

/-- C3 (amended): for every `BagGraph` built by the API that does not already
contain the edge `(A, B, l)`: adding the edge twice and deleting it once
leaves it present with count `1`; deleting it a second time removes it; and
in the final state each endpoint node is physically present exactly when its
node reference count is nonzero (so it is removed exactly when its own count
reached zero). -/
theorem claim3_bag_edge_refcount (ops : List (BagOp V L)) (A B : V) (l : L)
    (h0 : (BagGraph.runOps ops).edge_count A B l = 0) :
    let b := BagGraph.runOps ops
    let b2 := ((b.add_edge A B l).add_edge A B l).delete_edge A B l
    let b3 := b2.delete_edge A B l
    b2.edge_in A B l = true ∧ b2.edge_count A B l = 1
    ∧ b3.edge_in A B l = false ∧ b3.edge_count A B l = 0
    ∧ (A ∈ b3.G.nodes ↔ b3.node_count A ≠ 0)
    ∧ (B ∈ b3.G.nodes ↔ b3.node_count B ≠ 0) := by
  intro b b2 b3
  have hInv : BagInv b := bagInv_runOps ops
  have hnone : alookup b.erc (A, B, l) = none := by
    cases hc : alookup b.erc (A, B, l) with
    | none => rfl
    | some c =>
      have hpos := hInv.2.2.2.2.2 (_, c) (alookup_mem _ _ _ hc)
      unfold BagGraph.edge_count at h0
      rw [hc] at h0
      simp only [Option.getD_some] at h0
      simp only at hpos
      omega
  have e1 : (b.add_edge A B l).erc = aupdate b.erc (A, B, l) 1 := by
    rw [bag_add_edge_eq_none b A B l hnone]
  have l1 : alookup (b.add_edge A B l).erc (A, B, l) = some 1 := by
    rw [e1]; exact alookup_aupdate_self _ _ _
  have e2 : ((b.add_edge A B l).add_edge A B l).erc
      = aupdate (b.add_edge A B l).erc (A, B, l) (1 + 1) := by
    rw [bag_add_edge_eq_some (b.add_edge A B l) A B l 1 l1]
  have l2 : alookup ((b.add_edge A B l).add_edge A B l).erc (A, B, l)
      = some (1 + 1) := by
    rw [e2]; exact alookup_aupdate_self _ _ _
  have hz1 : ¬((1 + 1 : Int) - 1 = 0) := by norm_num
  have e3 : b2.erc = aupdate ((b.add_edge A B l).add_edge A B l).erc (A, B, l)
      ((1 + 1) - 1) := by
    show (((b.add_edge A B l).add_edge A B l).delete_edge A B l).erc = _
    rw [bag_delete_edge_eq_pos _ A B l (1 + 1) l2 hz1]
  have l3 : alookup b2.erc (A, B, l) = some ((1 + 1) - 1) := by
    rw [e3]; exact alookup_aupdate_self _ _ _
  have hInv2 : BagInv b2 :=
    bagInv_delete_edge _ _ _ _ (bagInv_add_edge _ _ _ _ (bagInv_add_edge _ _ _ _ hInv))
  refine ⟨?_, ?_, ?_, ?_, ?_, ?_⟩
  · unfold BagGraph.edge_in
    rw [l3]
    rfl
  · unfold BagGraph.edge_count
    rw [l3]
    norm_num
  · have hz2 : ((1 + 1 : Int) - 1) - 1 = 0 := by norm_num
    have e4 : b3.erc = aerase b2.erc (A, B, l) := by
      show (b2.delete_edge A B l).erc = _
      rw [bag_delete_edge_eq_zero b2 A B l ((1 + 1) - 1) l3 hz2]
    have l4 : alookup b3.erc (A, B, l) = none := by
      rw [e4]; exact alookup_aerase_self _ _ hInv2.2.2.1
    unfold BagGraph.edge_in
    rw [l4]
    rfl
  · have hz2 : ((1 + 1 : Int) - 1) - 1 = 0 := by norm_num
    have e4 : b3.erc = aerase b2.erc (A, B, l) := by
      show (b2.delete_edge A B l).erc = _
      rw [bag_delete_edge_eq_zero b2 A B l ((1 + 1) - 1) l3 hz2]
    have l4 : alookup b3.erc (A, B, l) = none := by
      rw [e4]; exact alookup_aerase_self _ _ hInv2.2.2.1
    unfold BagGraph.edge_count
    rw [l4]
    rfl
  · have hInv3 : BagInv b3 := bagInv_delete_edge _ _ _ _ hInv2
    rw [hInv3.2.2.2.1 A]
    unfold BagGraph.node_count
    cases hc : alookup b3.nrc A with
    | none => simp
    | some c =>
      have hpos := hInv3.2.2.2.2.1 (A, c) (alookup_mem _ _ _ hc)
      simp only at hpos
      simp only [Option.isSome_some, Option.getD_some]
      constructor
      · intro _; omega
      · intro _; trivial
  · have hInv3 : BagInv b3 := bagInv_delete_edge _ _ _ _ hInv2
    rw [hInv3.2.2.2.1 B]
    unfold BagGraph.node_count
    cases hc : alookup b3.nrc B with
    | none => simp
    | some c =>
      have hpos := hInv3.2.2.2.2.1 (B, c) (alookup_mem _ _ _ hc)
      simp only at hpos
      simp only [Option.isSome_some, Option.getD_some]
      constructor
      · intro _; omega
      · intro _; trivial

/-- C3 witness: the scenario run from the empty bag graph. -/
theorem claim3_bag_edge_refcount_witness :
    ((((BagGraph.empty : BagGraph Nat Unit).add_edge 0 1 ()).add_edge 0 1 ()).delete_edge
        0 1 ()).edge_count 0 1 () = 1
    ∧ (((((BagGraph.empty : BagGraph Nat Unit).add_edge 0 1 ()).add_edge 0 1 ()).delete_edge
        0 1 ()).delete_edge 0 1 ()).edge_in 0 1 () = false := by
  have h := claim3_bag_edge_refcount ([] : List (BagOp Nat Unit)) 0 1 () (by decide)
  exact ⟨h.2.1, h.2.2.1⟩

/-- C3 counterexample: a reachable `BagGraph` that already contains one copy
of edge `(0, 1)`.  After adding the edge twice and deleting it once, its
count is `2`, not `1`, so the claim fails for this bag graph. -/
theorem claim3_counterexample :
    exBagEdge = BagGraph.runOps [BagOp.addE 0 1 ()]
    ∧ (((exBagEdge.add_edge 0 1 ()).add_edge 0 1 ()).delete_edge 0 1 ()).edge_count 0 1 () = 2
    ∧ ¬(((exBagEdge.add_edge 0 1 ()).add_edge 0 1 ()).delete_edge 0 1 ()).edge_count 0 1 ()
        = 1 := by
  refine ⟨by decide, by decide, by decide⟩

/-- C10 witness: the invariant evaluated on a concrete operation sequence and
a concrete absent deletion. -/
theorem claim10_refcount_invariant_witness :
    (0 < (((0, 1, 0), (1 : Int)) : (Nat × Nat × Nat) × Int).2)
    ∧ (BagGraph.empty : BagGraph Nat Nat).delete_node 0 = BagGraph.empty := by
  constructor
  · exact ((claim10_refcount_invariant (V := Nat) (L := Nat)).1
      [BagOp.addE 0 1 0]).2 ((0, 1, 0), 1) (by decide)
  · exact (claim10_refcount_invariant (V := Nat) (L := Nat)).2.1
      BagGraph.empty 0 (by decide)

end BagTheorems

section RuleTheorems

theorem alookup_append_right {α β : Type} [DecidableEq α] (l1 l2 : List (α × β))
    (a : α) (h : alookup l1 a = none) : alookup (l1 ++ l2) a = alookup l2 a := by
  induction l1 with
  | nil => rfl
  | cons p r ih =>
    obtain ⟨k, v⟩ := p
    by_cases hk : k = a
    · simp [alookup, hk] at h
    · simp only [List.cons_append, alookup, if_neg hk] at h ⊢
      exact ih h

theorem alookup_isSome_of_mem_keys {α β : Type} [DecidableEq α]
    (l : List (α × β)) (a : α) (h : a ∈ l.map Prod.fst) :
    (alookup l a).isSome = true := by
  induction l with
  | nil => simp at h
  | cons p r ih =>
    obtain ⟨k, v⟩ := p
    by_cases hk : k = a
    · simp [alookup, hk]
    · simp only [List.map_cons, List.mem_cons] at h
      rcases h with h | h
      · exact absurd h.symm hk
      · simp only [alookup, if_neg hk]
        exact ih h

theorem alookup_of_mem_nodup {α β : Type} [DecidableEq α]
    (l : List (α × β)) (p : α × β) (hp : p ∈ l)
    (hk : (l.map Prod.fst).Nodup) : alookup l p.1 = some p.2 := by
  induction l with
  | nil => simp at hp
  | cons q r ih =>
    obtain ⟨k, v⟩ := q
    simp only [List.map_cons, List.nodup_cons] at hk
    rcases List.mem_cons.mp hp with h | h
    · subst h
      simp [alookup]
    · have hne : ¬k = p.1 := by
        intro he
        exact hk.1 (he ▸ (List.mem_map.mpr ⟨p, h, rfl⟩))
      simp only [alookup, if_neg hne]
      exact ih h hk.2

theorem update_ok_eq (ρ : Formula → Formula) (rs : RuleSet) (events : List Event) :
    update (okf ρ) rs events
      = (applyEvents ρ rs events, Except.ok (effectiveEvents ρ rs events)) := by
  induction events generalizing rs with
  | nil => rfl
  | cons e rest ih =>
    simp only [update, okf, ih, applyEvents, effectiveEvents, applyEvent]

theorem add_rule_eq_mem (rs : RuleSet) (t : String) (r : Rule) (lst : List Rule)
    (hc : alookup rs.buckets t = some lst) (hm : r ∈ lst) :
    rs.add_rule t r = (rs, false) := by
  unfold RuleSet.add_rule
  simp only [hc, if_pos hm]

theorem add_rule_eq_new (rs : RuleSet) (t : String) (r : Rule) (lst : List Rule)
    (hc : alookup rs.buckets t = some lst) (hm : r ∉ lst) :
    rs.add_rule t r = (⟨aupdate rs.buckets t (lst ++ [r])⟩, true) := by
  unfold RuleSet.add_rule
  simp only [hc, if_neg hm]

theorem add_rule_eq_fresh (rs : RuleSet) (t : String) (r : Rule)
    (hc : alookup rs.buckets t = none) :
    rs.add_rule t r = (⟨rs.buckets ++ [(t, [r])]⟩, true) := by
  unfold RuleSet.add_rule
  simp only [hc]

theorem add_rule_repeat (rs : RuleSet) (t : String) (r : Rule) :
    (rs.add_rule t r).1.add_rule t r = ((rs.add_rule t r).1, false) := by
  cases hc : alookup rs.buckets t with
  | some lst =>
    by_cases hm : r ∈ lst
    · rw [add_rule_eq_mem rs t r lst hc hm]
      exact add_rule_eq_mem rs t r lst hc hm
    · rw [add_rule_eq_new rs t r lst hc hm]
      exact add_rule_eq_mem _ t r (lst ++ [r])
        (alookup_aupdate_self _ _ _) (by simp)
  | none =>
    rw [add_rule_eq_fresh rs t r hc]
    refine add_rule_eq_mem _ t r [r] ?_ (by simp)
    show alookup (rs.buckets ++ [(t, [r])]) t = some [r]
    rw [alookup_append_right _ _ _ hc]
    simp [alookup]

theorem insert_actual_idem (rs : RuleSet) (f : Formula) :
    insert_actual (insert_actual rs f).1 f = ((insert_actual rs f).1, false) := by
  unfold insert_actual
  exact add_rule_repeat rs f.toRule.head.table f.toRule

/-- C2: with a (deterministic) safety reordering that succeeds on the given
events, `update` applies each event in order and returns exactly the
subsequence of events whose underlying `RuleSet` operation reported an actual
change; in particular, the second of two identical inserts reports no change
and leaves the stored state (hence the rule count) unchanged. -/
theorem claim2_update_changed_subsequence (ρ : Formula → Formula) (rs : RuleSet)
    (events : List Event) (f : Formula) :
    update (okf ρ) rs events
      = (applyEvents ρ rs events, Except.ok (effectiveEvents ρ rs events))
    ∧ update (okf ρ) (update (okf ρ) rs [⟨f, true⟩]).1 [⟨f, true⟩]
      = ((update (okf ρ) rs [⟨f, true⟩]).1, Except.ok [])
    ∧ (update (okf ρ) (update (okf ρ) rs [⟨f, true⟩]).1 [⟨f, true⟩]).1.ruleCount
      = (update (okf ρ) rs [⟨f, true⟩]).1.ruleCount := by
  have hid := insert_actual_idem rs (ρ f)
  have h2 : update (okf ρ) (update (okf ρ) rs [⟨f, true⟩]).1 [⟨f, true⟩]
      = ((update (okf ρ) rs [⟨f, true⟩]).1, Except.ok []) := by
    rw [update_ok_eq ρ rs [⟨f, true⟩], update_ok_eq ρ _ [⟨f, true⟩]]
    simp only [applyEvents, effectiveEvents, applyEvent, eq_self_iff_true, if_true]
    rw [hid]
    simp
  exact ⟨update_ok_eq ρ rs events, h2, by rw [h2]⟩

/-- C4: if the external safety reordering succeeds on every event of `pre`
and raises on `ev`, then `update rs (pre ++ ev :: post)` propagates the
exception, the final state is exactly the state after applying `pre` (later
events are not applied, earlier ones are not rolled back). -/
theorem claim4_update_exception (reorder : Formula → Except String Formula)
    (rs : RuleSet) (pre post : List Event) (ev : Event) (msg : String)
    (hpre : ∀ e ∈ pre, ∃ f, reorder e.formula = Except.ok f)
    (hev : reorder ev.formula = Except.error msg) :
    update reorder rs (pre ++ ev :: post)
      = (applyUntilError reorder rs pre, Except.error msg) := by
  revert hpre
  induction pre generalizing rs with
  | nil =>
    intro _
    show update reorder rs (ev :: post) = _
    simp only [update, hev, applyUntilError]
  | cons e pre' ih =>
    intro hpre
    obtain ⟨fe, hfe⟩ := hpre e (List.mem_cons_self e pre')
    show update reorder rs (e :: (pre' ++ ev :: post)) = _
    simp only [update, hfe]
    rw [ih _ (fun e' he' => hpre e' (List.mem_cons_of_mem _ he'))]
    simp only [applyUntilError, hfe]

/-- C4 witness: a concrete three-event batch where the middle event's
reordering raises; the first event stays applied and the third is skipped. -/
theorem claim4_update_exception_witness :
    update exReorder RuleSet.empty [exEventInsP, exEventBad, exEventInsP]
      = (applyUntilError exReorder RuleSet.empty [exEventInsP],
         Except.error "unsafe") := by
  have hpre : ∀ e ∈ [exEventInsP], ∃ f, exReorder e.formula = Except.ok f := by
    intro e he
    rw [List.mem_singleton] at he
    subst he
    exact ⟨Formula.rule exRuleP, rfl⟩
  exact claim4_update_exception exReorder RuleSet.empty [exEventInsP]
    [exEventInsP] exEventBad "unsafe" hpre rfl

theorem mem_allRules_of_bucket (rs : RuleSet) (t : String) (lst : List Rule)
    (r : Rule) (hc : alookup rs.buckets t = some lst) (hm : r ∈ lst) :
    r ∈ rs.allRules := by
  unfold RuleSet.allRules
  exact List.mem_flatten.mpr
    ⟨lst, List.mem_map.mpr ⟨(t, lst), alookup_mem _ _ _ hc, rfl⟩, hm⟩

theorem flatten_aupdate_perm {γ : Type} (l : List (String × List γ)) (t : String)
    (lst : List γ) (x : γ) (hc : alookup l t = some lst) :
    ((aupdate l t (lst ++ [x])).map Prod.snd).flatten.Perm
      ((l.map Prod.snd).flatten ++ [x]) := by
  induction l with
  | nil => simp [alookup] at hc
  | cons p r ih =>
    obtain ⟨k, v⟩ := p
    by_cases hk : k = t
    · subst hk
      have hv : v = lst := by simpa [alookup] using hc
      subst hv
      simp only [aupdate, eq_self_iff_true, if_true, List.map_cons,
        List.flatten_cons]
      rw [List.append_assoc, List.append_assoc]
      exact List.Perm.append_left v List.perm_append_comm
    · have hc' : alookup r t = some lst := by simpa [alookup, hk] using hc
      simp only [aupdate, if_neg hk, List.map_cons, List.flatten_cons]
      rw [List.append_assoc]
      exact List.Perm.append_left v (ih hc')

theorem add_rule_notmem (rs : RuleSet) (t : String) (r : Rule)
    (hnm : r ∉ rs.allRules) (hk : (rs.buckets.map Prod.fst).Nodup) :
    (rs.add_rule t r).2 = true
    ∧ (rs.add_rule t r).1.allRules.Perm (rs.allRules ++ [r])
    ∧ ((rs.add_rule t r).1.buckets.map Prod.fst).Nodup := by
  cases hc : alookup rs.buckets t with
  | some lst =>
    have hm : r ∉ lst := fun hm => hnm (mem_allRules_of_bucket rs t lst r hc hm)
    rw [add_rule_eq_new rs t r lst hc hm]
    exact ⟨rfl, flatten_aupdate_perm _ t lst r hc, keys_aupdate_nodup _ _ _ hk⟩
  | none =>
    rw [add_rule_eq_fresh rs t r hc]
    refine ⟨rfl, ?_, ?_⟩
    · unfold RuleSet.allRules
      simp
    · have hnk : t ∉ rs.buckets.map Prod.fst := by
        intro hmem
        have := alookup_isSome_of_mem_keys _ _ hmem
        rw [hc] at this
        simp at this
      simp only [List.map_append, List.map_cons, List.map_nil]
      rw [List.nodup_append]
      exact ⟨hk, List.nodup_singleton t,
        fun x hx hx2 => absurd ((List.mem_singleton.mp hx2) ▸ hx) hnk⟩

theorem applyInserts_perm (ρ : Formula → Formula) (R : List Rule) :
    ∀ rs : RuleSet,
      (∀ r ∈ R, ρ (Formula.rule r) = Formula.rule r) →
      R.Nodup → (∀ r ∈ R, r ∉ rs.allRules) →
      (rs.buckets.map Prod.fst).Nodup →
      (applyEvents ρ rs (R.map (fun r => ⟨Formula.rule r, true⟩))).allRules.Perm
        (rs.allRules ++ R)
      ∧ ((applyEvents ρ rs
          (R.map (fun r => ⟨Formula.rule r, true⟩))).buckets.map Prod.fst).Nodup := by
  induction R with
  | nil =>
    intro rs _ _ _ hk
    exact ⟨by simp [applyEvents], hk⟩
  | cons r R' ih =>
    intro rs hρ hnd hnm hk
    have hstep : applyEvent ρ rs ⟨Formula.rule r, true⟩ = rs.add_rule r.head.table r := by
      unfold applyEvent insert_actual
      rw [hρ r (List.mem_cons_self r R')]
      rfl
    have har := add_rule_notmem rs r.head.table r (hnm r (List.mem_cons_self r R')) hk
    have hR' : ∀ r' ∈ R', r' ∉ (rs.add_rule r.head.table r).1.allRules := by
      intro r' hr' hmem
      rcases (List.mem_append.mp ((har.2.1.mem_iff).mp hmem)) with hmem2 | hmem2
      · exact hnm r' (List.mem_cons_of_mem _ hr') hmem2
      · rw [List.mem_singleton] at hmem2
        exact (List.nodup_cons.mp hnd).1 (hmem2 ▸ hr')
    have hrec := ih (rs.add_rule r.head.table r).1
      (fun r' hr' => hρ r' (List.mem_cons_of_mem _ hr'))
      (List.nodup_cons.mp hnd).2 hR' har.2.2
    have hred : applyEvents ρ rs ((r :: R').map (fun r => ⟨Formula.rule r, true⟩))
        = applyEvents ρ (rs.add_rule r.head.table r).1
            (R'.map (fun r => ⟨Formula.rule r, true⟩)) := by
      simp only [List.map_cons, applyEvents, hstep]
    rw [hred]
    refine ⟨?_, hrec.2⟩
    have heq : (rs.allRules ++ [r]) ++ R' = rs.allRules ++ (r :: R') := by simp
    exact hrec.1.trans (heq ▸ (har.2.1.append_right R'))

theorem flatten_filter_nonempty {γ : Type} (l : List (String × List γ)) :
    ((l.filter (fun p => !p.2.isEmpty)).map Prod.snd).flatten
      = (l.map Prod.snd).flatten := by
  induction l with
  | nil => rfl
  | cons p r ih =>
    obtain ⟨k, v⟩ := p
    cases v with
    | nil => simpa using ih
    | cons x xs => simpa using ih

theorem content_eq_allRules (rs : RuleSet)
    (hk : (rs.buckets.map Prod.fst).Nodup) : content rs = rs.allRules := by
  have hfold : ∀ (ts : List String) (acc : List Rule),
      ts.foldl (fun acc t => acc ++ rs.get_rules t) acc
        = acc ++ (ts.map rs.get_rules).flatten := by
    intro ts
    induction ts with
    | nil => intro acc; simp
    | cons t ts ih =>
      intro acc
      simp only [List.foldl_cons, ih, List.map_cons, List.flatten_cons,
        List.append_assoc]
  unfold content RuleSet.keys
  rw [hfold]
  simp only [List.nil_append]
  have h1 : ((rs.buckets.filter (fun p => !p.2.isEmpty)).map Prod.fst).map rs.get_rules
      = (rs.buckets.filter (fun p => !p.2.isEmpty)).map Prod.snd := by
    rw [List.map_map]
    apply List.map_congr_left
    intro p hp
    have hpb : p ∈ rs.buckets := List.mem_of_mem_filter hp
    show rs.get_rules p.1 = p.2
    unfold RuleSet.get_rules
    rw [alookup_of_mem_nodup _ p hpb hk]
    rfl
  rw [h1, flatten_filter_nonempty]
  rfl

/-- C6 (amended): for a duplicate-free rule list `R` (and a safety reordering
that leaves the given, already-safe rules unchanged), `define(R)` followed by
`content()` returns the rules of `R` up to order. -/
theorem claim6_define_content (ρ : Formula → Formula) (R : List Rule)
    (hρ : ∀ r ∈ R, ρ (Formula.rule r) = Formula.rule r)
    (hnd : R.Nodup) :
    (content (defineRules (okf ρ) R).1).Perm R := by
  unfold defineRules
  rw [update_ok_eq]
  show (content (applyEvents ρ RuleSet.empty
    (R.map (fun r => ⟨Formula.rule r, true⟩)))).Perm R
  have h := applyInserts_perm ρ R RuleSet.empty hρ hnd
    (by intro r _ hmem; simp [RuleSet.allRules, RuleSet.empty] at hmem)
    (by simp [RuleSet.empty])
  rw [content_eq_allRules _ h.2]
  have h1 := h.1
  rw [show (RuleSet.empty).allRules ++ R = R by simp [RuleSet.allRules, RuleSet.empty]] at h1
  exact h1

/-- C6 witness: defining two distinct rules and reading the contents back. -/
theorem claim6_define_content_witness :
    (content (defineRules (okf (fun f => f)) [exRuleP, exRuleQ]).1).Perm
      [exRuleP, exRuleQ] := by
  exact claim6_define_content (fun f => f) [exRuleP, exRuleQ]
    (fun r _ => rfl) (by decide)

/-- C6 counterexample: `define` with a duplicated rule stores only one copy,
so `content()` is not the input list up to order (the claim fails for lists
with duplicates). -/
theorem claim6_counterexample :
    content (defineRules (okf (fun f => f)) [exRuleP, exRuleP]).1 = [exRuleP]
    ∧ ¬(content (defineRules (okf (fun f => f)) [exRuleP, exRuleP]).1).Perm
        [exRuleP, exRuleP] := by
  refine ⟨by decide, by decide⟩

end RuleTheorems

section CycleTheorems

/-- C7 (amended): on the dependency graph with exactly the edges `a→b`,
`b→c`, `c→a` (nodes in insertion order), `has_cycle()` returns true and the
recorded cycle is `[a, a, b, c]`: the cycle `[a, b, c]` in traversal order
with its starting node repeated at the front (an artefact of
`construct_cycle` appending `node` after the backpath walk already ended at
`node`). -/
theorem claim7_cycle_detection :
    exGraphCycle3.has_cycle.2 = true
    ∧ exGraphCycle3.has_cycle.1.cycles = some [[0, 0, 1, 2]] := by
  refine ⟨by decide, by decide⟩

/-- C7 counterexample: the recorded cycle `[a, a, b, c]` has length four, so
it is not the sequence `[a, b, c]` up to rotation as the claim states. -/
theorem claim7_counterexample :
    exGraphCycle3.has_cycle.1.cycles = some [[0, 0, 1, 2]]
    ∧ ∀ k, ([0, 0, 1, 2] : List Nat) ≠ List.rotate [0, 1, 2] k := by
  refine ⟨by decide, ?_⟩
  intro k h
  have hlen := congrArg List.length h
  simp [List.length_rotate] at hlen

end CycleTheorems

section DfsTheorems

variable {V : Type} {L : Type} [DecidableEq V] [DecidableEq L]

theorem dfsStep_refl (g : Graph V L) : DfsStep g g := by
  refine ⟨rfl, rfl, le_refl _, fun w b h => h, fun w e h => h, ?_, fun w _ => rfl, ?_⟩
  · intro w hw
    exact Or.inl ⟨hw, rfl⟩
  · intro w1 w2 b1 e1 b2 e2 h1 h2 h3 _ _ _
    rw [h1] at h3
    exact absurd h3 (by simp)

theorem dfsStep_trans {g1 g2 g3 : Graph V L} (h12 : DfsStep g1 g2)
    (h23 : DfsStep g2 g3) : DfsStep g1 g3 := by
  obtain ⟨n12, e12, c12, b12, f12, u12, x12, l12⟩ := h12
  obtain ⟨n23, e23, c23, b23, f23, u23, x23, l23⟩ := h23
  refine ⟨n23.trans n12, e23.trans e12, c12.trans c23, ?_, ?_, ?_, ?_, ?_⟩
  · exact fun w b h => b23 w b (b12 w b h)
  · exact fun w e h => f23 w e (f12 w e h)
  · intro w hw
    rcases u12 w hw with ⟨hn, hf⟩ | ⟨b, e2, hb, he, hcb, hbe, hec⟩
    · rcases u23 w hn with ⟨hn2, hf2⟩ | ⟨b, e2, hb, he, hcb, hbe, hec⟩
      · exact Or.inl ⟨hn2, by rw [hf2, hf]⟩
      · exact Or.inr ⟨b, e2, hb, he, c12.trans hcb, hbe, hec⟩
    · exact Or.inr ⟨b, e2, b23 w b hb, f23 w e2 he, hcb, hbe, lt_of_lt_of_le hec c23⟩
  · intro w hw
    cases hb : alookup g1.beg w with
    | none => exact absurd hb hw
    | some b =>
      have hb2 := b12 w b hb
      rw [x23 w (by rw [hb2]; simp), x12 w hw]
  · intro w1 w2 b1 e1 b2 e2 hw1 hw2 hb1 hf1 hb2 hf2
    rcases u12 w1 hw1 with ⟨hn1, _⟩ | ⟨a1, d1, ha1, hd1, hca1, had1, hdc1⟩
    · rcases u12 w2 hw2 with ⟨hn2, _⟩ | ⟨a2, d2, ha2, hd2, hca2, had2, hdc2⟩
      · exact l23 w1 w2 b1 e1 b2 e2 hn1 hn2 hb1 hf1 hb2 hf2
      · -- w1 completed in the second step, w2 in the first: disjoint windows
        have hb2' := b23 w2 a2 ha2
        have hf2' := f23 w2 d2 hd2
        rw [hb2] at hb2'
        rw [hf2] at hf2'
        obtain rfl : b2 = a2 := Option.some.inj hb2'
        obtain rfl : e2 = d2 := Option.some.inj hf2'
        rcases u23 w1 hn1 with ⟨hn1', _⟩ | ⟨bb, ee, hbb, hee, hcbb, _, _⟩
        · rw [hb1] at hn1'
          exact absurd hn1' (by simp)
        · rw [hb1] at hbb
          obtain rfl : b1 = bb := Option.some.inj hbb
          exact Or.inr (Or.inl (lt_of_lt_of_le hdc2 hcbb))
    · rcases u12 w2 hw2 with ⟨hn2, _⟩ | ⟨a2, d2, ha2, hd2, hca2, had2, hdc2⟩
      · -- w2 completed in the second step, w1 in the first
        have hb1' := b23 w1 a1 ha1
        have hf1' := f23 w1 d1 hd1
        rw [hb1] at hb1'
        rw [hf1] at hf1'
        obtain rfl : b1 = a1 := Option.some.inj hb1'
        obtain rfl : e1 = d1 := Option.some.inj hf1'
        rcases u23 w2 hn2 with ⟨hn2', _⟩ | ⟨bb, ee, hbb, hee, hcbb, _, _⟩
        · rw [hb2] at hn2'
          exact absurd hn2' (by simp)
        · rw [hb2] at hbb
          obtain rfl : b2 = bb := Option.some.inj hbb
          exact Or.inl (lt_of_lt_of_le hdc1 hcbb)
      · -- both completed in the first step: values persist
        have hb1' := b23 w1 a1 ha1
        have hf1' := f23 w1 d1 hd1
        have hb2' := b23 w2 a2 ha2
        have hf2' := f23 w2 d2 hd2
        rw [hb1] at hb1'
        rw [hf1] at hf1'
        rw [hb2] at hb2'
        rw [hf2] at hf2'
        obtain rfl : b1 = a1 := Option.some.inj hb1'
        obtain rfl : e1 = d1 := Option.some.inj hf1'
        obtain rfl : b2 = a2 := Option.some.inj hb2'
        obtain rfl : e2 = d2 := Option.some.inj hf2'
        exact l12 w1 w2 b1 e1 b2 e2 hw1 hw2 ha1 hd1 ha2 hd2

theorem sum_filter_update (nodes : List V) (f : V → Nat) (p q : V → Bool)
    (v : V) (hv : v ∈ nodes) (hnd : nodes.Nodup) (hpv : p v = true)
    (hqv : q v = false) (hagree : ∀ w, w ≠ v → q w = p w) :
    ((nodes.filter q).map f).sum + f v = ((nodes.filter p).map f).sum := by
  induction nodes with
  | nil => simp at hv
  | cons w rest ih =>
    rcases List.mem_cons.mp hv with hw | hw
    · subst hw
      have hnotin : v ∉ rest := (List.nodup_cons.mp hnd).1
      have hfilter : rest.filter q = rest.filter p :=
        List.filter_congr (fun a ha => hagree a (fun he => hnotin (he ▸ ha)))
      rw [List.filter_cons_of_pos hpv, List.filter_cons_of_neg (by simp [hqv]),
        hfilter]
      simp only [List.map_cons, List.sum_cons]
      omega
    · have hwv : w ≠ v := by
        intro he
        exact (List.nodup_cons.mp hnd).1 (he ▸ hw)
      have hq : q w = p w := hagree w hwv
      have ihr := ih hw (List.nodup_cons.mp hnd).2
      cases hp : p w with
      | true =>
        rw [List.filter_cons_of_pos (hq.trans hp), List.filter_cons_of_pos hp]
        simp only [List.map_cons, List.sum_cons]
        omega
      | false =>
        rw [List.filter_cons_of_neg (by simp [hq, hp]),
          List.filter_cons_of_neg (by simp [hp])]
        exact ihr

theorem unvisitedSize_le_gsize (g : Graph V L) : g.unvisitedSize ≤ g.gsize := by
  unfold Graph.unvisitedSize Graph.gsize
  exact ((List.filter_sublist g.nodes).map _).sum_le_sum
    (fun a _ => Nat.zero_le a)

theorem unvisitedSize_mem_lower (g : Graph V L) (v : V) (hv : v ∈ g.nodes)
    (hb : alookup g.beg v = none) :
    2 + (g.adj v).length ≤ g.unvisitedSize := by
  unfold Graph.unvisitedSize
  have hmem : v ∈ g.nodes.filter (fun w => (alookup g.beg w).isNone) :=
    List.mem_filter.mpr ⟨hv, by rw [hb]; rfl⟩
  have hmem2 : 2 + (g.adj v).length ∈
      (g.nodes.filter (fun w => (alookup g.beg w).isNone)).map
        (fun w => 2 + (g.adj w).length) :=
    List.mem_map.mpr ⟨v, hmem, rfl⟩
  exact List.single_le_sum (fun a _ => Nat.zero_le a) _ hmem2

theorem dfsStep_aux (g g' : Graph V L) (hn : g'.nodes = g.nodes)
    (he : g'.edges = g.edges) (hb : g'.beg = g.beg) (hf : g'.fin = g.fin)
    (hc : g'.counter = g.counter) : DfsStep g g' := by
  refine ⟨hn, he, le_of_eq hc.symm, ?_, ?_, ?_, ?_, ?_⟩
  · intro w b h; rw [hb]; exact h
  · intro w e h; rw [hf]; exact h
  · intro w h
    exact Or.inl ⟨by rw [hb]; exact h, by rw [hf]⟩
  · intro w _; rw [hf]
  · intro w1 w2 b1 e1 b2 e2 h1 _ h3 _ _ _
    rw [hb, h1] at h3
    exact absurd h3 (by simp)

theorem dfsGo_spec (f : Nat) :
    ∀ (g : Graph V L) (t : Task V L),
      g.nodes.Nodup →
      (∀ p ∈ g.edges, ∀ e ∈ p.2, e.node ∈ g.nodes) →
      (∀ w, alookup g.beg w = none → alookup g.fin w = none) →
      (match t with
       | .visit v => v ∈ g.nodes ∧ alookup g.beg v = none ∧ g.unvisitedSize ≤ f
       | .scan _ es => (∀ e ∈ es, e.node ∈ g.nodes)
           ∧ g.unvisitedSize + es.length + 1 ≤ f) →
      ∃ g', dfsGo f g t = some g' ∧ DfsStep g g'
        ∧ (match t with
           | .visit v => g'.unvisitedSize + (2 + (g.adj v).length) ≤ g.unvisitedSize
               ∧ (alookup g'.beg v).isSome = true
           | .scan _ _ => g'.unvisitedSize ≤ g.unvisitedSize) := by
  induction f with
  | zero =>
    intro g t hnd hwfe hbf hhyp
    cases t with
    | visit v =>
      obtain ⟨hv, hb, hs⟩ := hhyp
      have := unvisitedSize_mem_lower g v hv hb
      omega
    | scan v es =>
      obtain ⟨_, hs⟩ := hhyp
      omega
  | succ f ih =>
    intro g t hnd hwfe hbf hhyp
    cases t with
    | visit v =>
      obtain ⟨hv, hb, hs⟩ := hhyp
      -- the state after `self.nodes[node].begin = self.next_counter()`
      have hsize1 : Graph.unvisitedSize
          { g with beg := aupdate g.beg v g.counter, counter := g.counter + 1 }
          + (2 + (g.adj v).length) = g.unvisitedSize := by
        exact sum_filter_update g.nodes (fun w => 2 + (g.adj w).length)
          (fun w => (alookup g.beg w).isNone)
          (fun w => (alookup (aupdate g.beg v g.counter) w).isNone)
          v hv hnd
          (by show (alookup g.beg v).isNone = true
              rw [hb]; rfl)
          (by show (alookup (aupdate g.beg v g.counter) v).isNone = false
              rw [alookup_aupdate_self]; rfl)
          (fun w hw => by
            show (alookup (aupdate g.beg v g.counter) w).isNone
              = (alookup g.beg w).isNone
            rw [alookup_aupdate_ne _ _ _ _ (fun he => hw he.symm)])
      have hadj : ∀ e ∈ Graph.adj
          { g with beg := aupdate g.beg v g.counter, counter := g.counter + 1 } v,
          e.node ∈ g.nodes := by
        intro e he
        have he' : e ∈ (alookup g.edges v).getD [] := he
        cases hk : alookup g.edges v with
        | none => rw [hk] at he'; simp at he'
        | some bucket =>
          rw [hk] at he'
          simp only [Option.getD_some] at he'
          exact (hwfe _ (alookup_mem _ _ _ hk) e he')
      have hbfR : ∀ w, alookup (aupdate g.beg v g.counter) w = none →
          alookup g.fin w = none := by
        intro w hw
        have hwv : w ≠ v := by
          intro he
          rw [he, alookup_aupdate_self] at hw
          exact Option.noConfusion hw
        rw [alookup_aupdate_ne _ _ _ _ (fun he => hwv he.symm)] at hw
        exact hbf w hw
      have hlen : Graph.adj
          { g with beg := aupdate g.beg v g.counter, counter := g.counter + 1 } v
          = g.adj v := rfl
      obtain ⟨g2, hrun2, hstep2, hsize2⟩ :=
        ih { g with beg := aupdate g.beg v g.counter, counter := g.counter + 1 }
          (.scan v (Graph.adj
            { g with beg := aupdate g.beg v g.counter, counter := g.counter + 1 } v))
          hnd hwfe hbfR
          ⟨hadj, by rw [hlen]; omega⟩
      obtain ⟨sn, se, sc, sb, sf, su, sx, sl⟩ := hstep2
      have sc' : g.counter + 1 ≤ g2.counter := sc
      have hbegv : alookup g2.beg v = some g.counter :=
        sb v g.counter (alookup_aupdate_self _ _ _)
      have hRbeg : ∀ w, w ≠ v →
          alookup (aupdate g.beg v g.counter) w = alookup g.beg w :=
        fun w hw => alookup_aupdate_ne _ _ _ _ (fun he => hw he.symm)
      refine ⟨{ g2 with
        fin := aupdate g2.fin v g2.counter,
        counter := g2.counter + 1 }, ?_, ?_, ?_, ?_⟩
      · simp only [dfsGo]
        rw [hrun2]
      · -- DfsStep g (final)
        refine ⟨sn, se, by
          show g.counter ≤ g2.counter + 1
          omega, ?_, ?_, ?_, ?_, ?_⟩
        · intro w b hwb
          have hwv : w ≠ v := by
            intro he
            rw [he, hb] at hwb
            exact Option.noConfusion hwb
          exact sb w b (by rw [hRbeg w hwv]; exact hwb)
        · intro w e hwe
          have hwv : w ≠ v := by
            intro he
            rw [he, hbf v hb] at hwe
            exact Option.noConfusion hwe
          show alookup (aupdate g2.fin v g2.counter) w = some e
          rw [alookup_aupdate_ne _ _ _ _ (fun he2 => hwv he2.symm)]
          exact sf w e hwe
        · intro w hw
          by_cases hwv : w = v
          · subst hwv
            refine Or.inr ⟨g.counter, g2.counter, hbegv, ?_, le_refl _, ?_, ?_⟩
            · show alookup (aupdate g2.fin w g2.counter) w = some g2.counter
              exact alookup_aupdate_self _ _ _
            · omega
            · show g2.counter < g2.counter + 1
              omega
          · have hwR : alookup (aupdate g.beg v g.counter) w = none := by
              rw [hRbeg w hwv]; exact hw
            rcases su w hwR with ⟨hn2, hf2⟩ | ⟨b, e2, hb2, he2, hcb, hbe2, hec⟩
            · refine Or.inl ⟨hn2, ?_⟩
              show alookup (aupdate g2.fin v g2.counter) w = alookup g.fin w
              rw [alookup_aupdate_ne _ _ _ _ (fun he2 => hwv he2.symm), hf2]
            · have hcb' : g.counter + 1 ≤ b := hcb
              refine Or.inr ⟨b, e2, hb2, ?_, by omega, hbe2, by
                show e2 < g2.counter + 1
                omega⟩
              show alookup (aupdate g2.fin v g2.counter) w = some e2
              rw [alookup_aupdate_ne _ _ _ _ (fun he2 => hwv he2.symm)]
              exact he2
        · intro w hw
          have hwv : w ≠ v := by
            intro he
            exact hw (he ▸ hb)
          show alookup (aupdate g2.fin v g2.counter) w = alookup g.fin w
          rw [alookup_aupdate_ne _ _ _ _ (fun he2 => hwv he2.symm)]
          rw [sx w (by rw [hRbeg w hwv]; exact hw)]
        · intro w1 w2 b1 e1 b2 e2 hw1 hw2 hb1 hf1 hb2 hf2
          simp only at hb1 hf1 hb2 hf2
          by_cases h1v : w1 = v
          · subst h1v
            rw [hbegv] at hb1
            obtain rfl : b1 = g.counter := (Option.some.inj hb1).symm
            rw [alookup_aupdate_self] at hf1
            obtain rfl : e1 = g2.counter := (Option.some.inj hf1).symm
            by_cases h2v : w2 = w1
            · subst h2v
              rw [hbegv] at hb2
              obtain rfl : b2 = g.counter := (Option.some.inj hb2).symm
              rw [alookup_aupdate_self] at hf2
              obtain rfl : e2 = g2.counter := (Option.some.inj hf2).symm
              exact Or.inr (Or.inr (Or.inl ⟨le_refl _, le_refl _⟩))
            · have hwR : alookup (aupdate g.beg w1 g.counter) w2 = none := by
                rw [hRbeg w2 h2v]; exact hw2
              rcases su w2 hwR with ⟨hn2, _⟩ | ⟨b, e2', hb2', he2', hcb, hbe2, hec⟩
              · rw [hn2] at hb2
                exact absurd hb2 (by simp)
              · have hcb' : g.counter + 1 ≤ b := hcb
                rw [hb2'] at hb2
                obtain rfl : b2 = b := (Option.some.inj hb2).symm
                rw [alookup_aupdate_ne _ _ _ _ (fun he2 => h2v he2.symm), he2'] at hf2
                obtain rfl : e2 = e2' := (Option.some.inj hf2).symm
                exact Or.inr (Or.inr (Or.inl ⟨by omega, by omega⟩))
          · by_cases h2v : w2 = v
            · subst h2v
              rw [hbegv] at hb2
              obtain rfl : b2 = g.counter := (Option.some.inj hb2).symm
              rw [alookup_aupdate_self] at hf2
              obtain rfl : e2 = g2.counter := (Option.some.inj hf2).symm
              have hwR : alookup (aupdate g.beg w2 g.counter) w1 = none := by
                rw [hRbeg w1 h1v]; exact hw1
              rcases su w1 hwR with ⟨hn1, _⟩ | ⟨b, e1', hb1', he1', hcb, hbe1, hec⟩
              · rw [hn1] at hb1
                exact absurd hb1 (by simp)
              · have hcb' : g.counter + 1 ≤ b := hcb
                rw [hb1'] at hb1
                obtain rfl : b1 = b := (Option.some.inj hb1).symm
                rw [alookup_aupdate_ne _ _ _ _ (fun he2 => h1v he2.symm), he1'] at hf1
                obtain rfl : e1 = e1' := (Option.some.inj hf1).symm
                exact Or.inr (Or.inr (Or.inr ⟨by omega, by omega⟩))
            · have hwR1 : alookup (aupdate g.beg v g.counter) w1 = none := by
                rw [hRbeg w1 h1v]; exact hw1
              have hwR2 : alookup (aupdate g.beg v g.counter) w2 = none := by
                rw [hRbeg w2 h2v]; exact hw2
              rw [alookup_aupdate_ne _ _ _ _ (fun he2 => h1v he2.symm)] at hf1
              rw [alookup_aupdate_ne _ _ _ _ (fun he2 => h2v he2.symm)] at hf2
              exact sl w1 w2 b1 e1 b2 e2 hwR1 hwR2 hb1 hf1 hb2 hf2
      · -- size for visit
        have hgsz : Graph.unvisitedSize { g2 with
            fin := aupdate g2.fin v g2.counter,
            counter := g2.counter + 1 } = g2.unvisitedSize := rfl
        rw [hgsz]
        omega
      · -- begin of v is assigned
        show (alookup g2.beg v).isSome = true
        rw [hbegv]
        rfl
    | scan v es =>
      obtain ⟨hes, hsz⟩ := hhyp
      cases es with
      | nil =>
        refine ⟨g, by simp only [dfsGo], dfsStep_refl g, le_refl _⟩
      | cons e rest =>
        have hbp : DfsStep g { g with backpath := aupdate g.backpath e.node v } :=
          dfsStep_aux _ _ rfl rfl rfl rfl rfl
        by_cases hbe : alookup g.beg e.node = none
        · -- unvisited target: recursive visit, then continue the scan
          have hszg : Graph.unvisitedSize
              { g with backpath := aupdate g.backpath e.node v }
              = g.unvisitedSize := rfl
          have hlen2 : (e :: rest).length = rest.length + 1 := rfl
          have hhyp2 : e.node ∈ ({ g with
              backpath := aupdate g.backpath e.node v } : Graph V L).nodes
              ∧ alookup ({ g with
                backpath := aupdate g.backpath e.node v } : Graph V L).beg e.node = none
              ∧ Graph.unvisitedSize
                  { g with backpath := aupdate g.backpath e.node v } ≤ f := by
            refine ⟨hes e (List.mem_cons_self e rest), hbe, ?_⟩
            rw [hszg]
            rw [hlen2] at hsz
            omega
          obtain ⟨g2, hrun2, hstep2, hsz2, hbs2⟩ :=
            ih { g with backpath := aupdate g.backpath e.node v } (.visit e.node)
              hnd hwfe hbf hhyp2
          rw [hszg] at hsz2
          have hn2 : g2.nodes = g.nodes := hstep2.1
          have he2 : g2.edges = g.edges := hstep2.2.1
          have hbf2 : ∀ w, alookup g2.beg w = none → alookup g2.fin w = none := by
            intro w hw
            have hw1 : alookup g.beg w = none := by
              cases hk : alookup g.beg w with
              | none => rfl
              | some b =>
                have := hstep2.2.2.2.1 w b hk
                rw [hw] at this
                exact Option.noConfusion this
            rcases hstep2.2.2.2.2.2.1 w hw1 with ⟨_, hf2⟩ | ⟨b, e2, hb2, _, _, _, _⟩
            · rw [hf2]
              exact hbf w hw1
            · rw [hb2] at hw
              exact Option.noConfusion hw
          have hnd2 : g2.nodes.Nodup := by rw [hn2]; exact hnd
          have hwfe2 : ∀ p ∈ g2.edges, ∀ e2 ∈ p.2, e2.node ∈ g2.nodes := by
            rw [he2, hn2]
            exact hwfe
          have hes2 : ∀ e' ∈ rest, e'.node ∈ g2.nodes := by
            intro e' he'
            rw [hn2]
            exact hes e' (List.mem_cons_of_mem _ he')
          have hsz2' : g2.unvisitedSize + rest.length + 1 ≤ f := by
            rw [hlen2] at hsz
            omega
          obtain ⟨g3, hrun3, hstep3, hsz3⟩ :=
            ih g2 (.scan v rest) hnd2 hwfe2 hbf2 ⟨hes2, hsz2'⟩
          refine ⟨g3, ?_, dfsStep_trans hbp (dfsStep_trans hstep2 hstep3), ?_⟩
          · simp only [dfsGo]
            rw [if_pos hbe, hrun2]
            exact hrun3
          · omega
        · -- already begun: maybe record a cycle, then continue the scan
          by_cases hfe : alookup g.fin e.node = none
          · have hszg : Graph.unvisitedSize
                { g with
                  backpath := aupdate g.backpath e.node v,
                  cycles := some ((g.cycles.getD []) ++
                    [construct_cycle (aupdate g.backpath e.node v) e.node]) }
                = g.unvisitedSize := rfl
            have hszr : Graph.unvisitedSize
                { g with
                  backpath := aupdate g.backpath e.node v,
                  cycles := some ((g.cycles.getD []) ++
                    [construct_cycle (aupdate g.backpath e.node v) e.node]) }
                + rest.length + 1 ≤ f := by
              rw [hszg]
              have hlen2 : (e :: rest).length = rest.length + 1 := rfl
              rw [hlen2] at hsz
              omega
            obtain ⟨g3, hrun3, hstep3, hsz3⟩ :=
              ih { g with
                    backpath := aupdate g.backpath e.node v,
                    cycles := some ((g.cycles.getD []) ++
                      [construct_cycle (aupdate g.backpath e.node v) e.node]) }
                (.scan v rest) hnd hwfe hbf
                ⟨fun e' he' => hes e' (List.mem_cons_of_mem _ he'), hszr⟩
            rw [hszg] at hsz3
            refine ⟨g3, ?_, dfsStep_trans
              (dfsStep_aux _ _ rfl rfl rfl rfl rfl) hstep3, hsz3⟩
            simp only [dfsGo]
            rw [if_neg hbe, if_pos hfe]
            exact hrun3
          · have hszg : Graph.unvisitedSize
                { g with backpath := aupdate g.backpath e.node v }
                = g.unvisitedSize := rfl
            have hszr : Graph.unvisitedSize
                { g with backpath := aupdate g.backpath e.node v }
                + rest.length + 1 ≤ f := by
              rw [hszg]
              have hlen2 : (e :: rest).length = rest.length + 1 := rfl
              rw [hlen2] at hsz
              omega
            obtain ⟨g3, hrun3, hstep3, hsz3⟩ :=
              ih { g with backpath := aupdate g.backpath e.node v }
                (.scan v rest) hnd hwfe hbf
                ⟨fun e' he' => hes e' (List.mem_cons_of_mem _ he'), hszr⟩
            rw [hszg] at hsz3
            refine ⟨g3, ?_, dfsStep_trans hbp hstep3, hsz3⟩
            simp only [dfsGo]
            rw [if_neg hbe, if_neg hfe]
            exact hrun3

theorem dfsStep_hbf {g g' : Graph V L} (h : DfsStep g g')
    (hbf : ∀ w, alookup g.beg w = none → alookup g.fin w = none) :
    ∀ w, alookup g'.beg w = none → alookup g'.fin w = none := by
  intro w hw
  have hw1 : alookup g.beg w = none := by
    cases hk : alookup g.beg w with
    | none => rfl
    | some b =>
      have := h.2.2.2.1 w b hk
      rw [hw] at this
      exact Option.noConfusion this
  rcases h.2.2.2.2.2.1 w hw1 with ⟨_, hf2⟩ | ⟨b, e2, hb2, _, _, _, _⟩
  · rw [hf2]
    exact hbf w hw1
  · rw [hb2] at hw
    exact Option.noConfusion hw

theorem dfsLoop_spec (vs : List V) :
    ∀ g : Graph V L,
      g.nodes.Nodup →
      (∀ p ∈ g.edges, ∀ e ∈ p.2, e.node ∈ g.nodes) →
      (∀ w, alookup g.beg w = none → alookup g.fin w = none) →
      (∀ v ∈ vs, v ∈ g.nodes) →
      DfsStep g (dfsLoop g vs)
      ∧ ∀ v ∈ vs, (alookup (dfsLoop g vs).beg v).isSome = true := by
  induction vs with
  | nil =>
    intro g _ _ _ _
    exact ⟨dfsStep_refl g, by simp⟩
  | cons v rest ih =>
    intro g hnd hwfe hbf hmem
    by_cases hbv : alookup g.beg v = none
    · have hfuel : g.unvisitedSize ≤ g.gsize + 1 :=
        le_trans (unvisitedSize_le_gsize g) (by omega)
      obtain ⟨g2, hrun, hstep, _, hbs⟩ := dfsGo_spec (g.gsize + 1) g (.visit v)
        hnd hwfe hbf ⟨hmem v (List.mem_cons_self _ _), hbv, hfuel⟩
      have hred : dfsLoop g (v :: rest) = dfsLoop g2 rest := by
        simp only [dfsLoop]
        rw [if_pos hbv, hrun]
      have hnd2 : g2.nodes.Nodup := by rw [hstep.1]; exact hnd
      have hwfe2 : ∀ p ∈ g2.edges, ∀ e ∈ p.2, e.node ∈ g2.nodes := by
        rw [hstep.2.1, hstep.1]
        exact hwfe
      have hbf2 := dfsStep_hbf hstep hbf
      have hmem2 : ∀ u ∈ rest, u ∈ g2.nodes := by
        intro u hu
        rw [hstep.1]
        exact hmem u (List.mem_cons_of_mem _ hu)
      obtain ⟨hstep3, hsome3⟩ := ih g2 hnd2 hwfe2 hbf2 hmem2
      refine ⟨by rw [hred]; exact dfsStep_trans hstep hstep3, ?_⟩
      intro u hu
      rw [hred]
      rcases List.mem_cons.mp hu with hu | hu
      · subst hu
        obtain ⟨b, hb⟩ := Option.isSome_iff_exists.mp hbs
        rw [hstep3.2.2.2.1 u b hb]
        rfl
      · exact hsome3 u hu
    · have hred : dfsLoop g (v :: rest) = dfsLoop g rest := by
        simp only [dfsLoop]
        rw [if_neg hbv]
      obtain ⟨hstep3, hsome3⟩ := ih g hnd hwfe hbf
        (fun u hu => hmem u (List.mem_cons_of_mem _ hu))
      refine ⟨by rw [hred]; exact hstep3, ?_⟩
      intro u hu
      rw [hred]
      rcases List.mem_cons.mp hu with hu | hu
      · subst hu
        cases hk : alookup g.beg u with
        | none => exact absurd hk hbv
        | some b =>
          rw [hstep3.2.2.2.1 u b hk]
          rfl
      · exact hsome3 u hu

/-- C5 (amended): after a completed `depth_first_search` of a well-formed
graph, every node carries a discovery/finish interval with `begin < end`,
and any two assigned intervals are disjoint or nested (the parenthesis
property of §3).  The claim's original form — nesting for every reachable
pair — fails when the reachable node was visited in an earlier DFS tree
(see the counterexample). -/
theorem claim5_dfs_intervals (g : Graph V L) (hwf : g.WF) :
    (∀ v ∈ g.nodes, ∃ b e2,
        alookup g.depth_first_search.beg v = some b
        ∧ alookup g.depth_first_search.fin v = some e2 ∧ b < e2)
    ∧ ∀ x y bx ex b2 e2,
        alookup g.depth_first_search.beg x = some bx →
        alookup g.depth_first_search.fin x = some ex →
        alookup g.depth_first_search.beg y = some b2 →
        alookup g.depth_first_search.fin y = some e2 →
        bx < ex ∧ IntervalsLaminar bx ex b2 e2 := by
  obtain ⟨hnd, hknd, hcl⟩ := hwf
  have hcl2 : ∀ p ∈ g.reset.edges, ∀ e ∈ p.2, e.node ∈ g.reset.nodes := by
    intro p hp e he
    exact (hcl p hp).2 e he
  have hbf0 : ∀ w, alookup g.reset.beg w = none → alookup g.reset.fin w = none :=
    fun w _ => rfl
  obtain ⟨hstep, hsome⟩ := dfsLoop_spec g.nodes g.reset hnd hcl2 hbf0
    (fun v hv => hv)
  have hres : g.depth_first_search = dfsLoop g.reset g.nodes := rfl
  rw [hres]
  constructor
  · intro v hv
    have hbs := hsome v hv
    obtain ⟨b, hb⟩ := Option.isSome_iff_exists.mp hbs
    rcases hstep.2.2.2.2.2.1 v rfl with ⟨hn, _⟩ | ⟨b', e2, hb', he', _, hbe, _⟩
    · rw [hn] at hb
      exact Option.noConfusion hb
    · exact ⟨b', e2, hb', he', hbe⟩
  · intro x y bx ex b2 e2 hbx hex hby hey
    have hlam := hstep.2.2.2.2.2.2.2 x y bx ex b2 e2 rfl rfl hbx hex hby hey
    rcases hstep.2.2.2.2.2.1 x rfl with ⟨hn, _⟩ | ⟨b', e2', hb', he', _, hbe, _⟩
    · rw [hn] at hbx
      exact Option.noConfusion hbx
    · rw [hb'] at hbx
      rw [he'] at hex
      obtain rfl : bx = b' := (Option.some.inj hbx).symm
      obtain rfl : ex = e2' := (Option.some.inj hex).symm
      exact ⟨hbe, hlam⟩

/-- C5 witness: the parenthesis property evaluated on the concrete
three-node cycle graph (node `1` has interval `[1, 4]`, node `0` has
`[0, 5]`, the former nested in the latter). -/
theorem claim5_dfs_intervals_witness : IntervalsLaminar 1 4 0 5 := by
  exact ((claim5_dfs_intervals exGraphCycle3 (by decide)).2 1 0 1 4 0 5
    (by decide) (by decide) (by decide) (by decide)).2

/-- C5 counterexample: in the graph where node `0` is inserted before the
edge `1 → 0`, node `0` is reachable from node `1` but is visited in an
earlier DFS tree: `begin(1) = 2 > 0 = begin(0)`, so the claimed nesting
`y.begin ≤ x.begin < x.end ≤ y.end` for reachable pairs fails. -/
theorem claim5_counterexample :
    ¬(∀ (x y : Nat) (bx ex b2 e2 : Nat),
        ReachableG exGraphDfsCex y x →
        alookup exGraphDfsCex.depth_first_search.beg x = some bx →
        alookup exGraphDfsCex.depth_first_search.fin x = some ex →
        alookup exGraphDfsCex.depth_first_search.beg y = some b2 →
        alookup exGraphDfsCex.depth_first_search.fin y = some e2 →
        b2 ≤ bx ∧ bx < ex ∧ ex ≤ e2) := by
  intro h
  have hreach : ReachableG exGraphDfsCex 1 0 := by
    refine ⟨[(1, ⟨0, ()⟩)], ?_⟩
    refine ⟨rfl, ⟨[⟨0, ()⟩], by decide, by decide⟩, rfl⟩
  have := h 0 1 0 1 2 3 hreach (by decide) (by decide) (by decide) (by decide)
  omega

end DfsTheorems

section StratTheorems

variable {V : Type} {L : Type} [DecidableEq V] [DecidableEq L]

theorem isPathG_append (g : Graph V L) (p q : List (V × EdgeData V L)) :
    ∀ u w, isPathG g u (p ++ q) w ↔ ∃ m, isPathG g u p m ∧ isPathG g m q w := by
  induction p with
  | nil =>
    intro u w
    constructor
    · intro h
      exact ⟨u, rfl, h⟩
    · rintro ⟨m, hm, hq⟩
      have : u = m := hm
      rw [this]
      exact hq
  | cons s rest ih =>
    intro u w
    constructor
    · rintro ⟨hu, hmem, hrest⟩
      obtain ⟨m, hm1, hm2⟩ := (ih s.2.node w).mp hrest
      exact ⟨m, ⟨hu, hmem, hm1⟩, hm2⟩
    · rintro ⟨m, ⟨hu, hmem, hrest⟩, hq⟩
      exact ⟨hu, hmem, (ih s.2.node w).mpr ⟨m, hrest, hq⟩⟩

theorem edgeMem_source_mem (g : Graph V L) (hwf : g.WF) (a : V)
    (e : EdgeData V L) (h : g.edgeMem a e) : a ∈ g.nodes := by
  obtain ⟨b, hb, _⟩ := h
  exact (hwf.2.2 (a, b) (alookup_mem _ _ _ hb)).1

theorem edgeMem_target_mem (g : Graph V L) (hwf : g.WF) (a : V)
    (e : EdgeData V L) (h : g.edgeMem a e) : e.node ∈ g.nodes := by
  obtain ⟨b, hb, hm⟩ := h
  exact (hwf.2.2 (a, b) (alookup_mem _ _ _ hb)).2 e hm

theorem isPathG_end_mem (g : Graph V L) (hwf : g.WF) (p : List (V × EdgeData V L)) :
    ∀ u w, u ∈ g.nodes → isPathG g u p w → w ∈ g.nodes := by
  induction p with
  | nil =>
    intro u w hu h
    exact h ▸ hu
  | cons s rest ih =>
    rintro u w hu ⟨hus, hmem, hrest⟩
    exact ih s.2.node w (edgeMem_target_mem g hwf _ _ hmem) hrest

theorem labeledSteps_cons_pos (labels : List L) (s : V × EdgeData V L)
    (rest : List (V × EdgeData V L)) (hl : s.2.label ∈ labels) :
    labeledSteps labels (s :: rest) = s :: labeledSteps labels rest := by
  simp [labeledSteps, hl]

theorem labeledSteps_cons_neg (labels : List L) (s : V × EdgeData V L)
    (rest : List (V × EdgeData V L)) (hl : s.2.label ∉ labels) :
    labeledSteps labels (s :: rest) = labeledSteps labels rest := by
  simp [labeledSteps, hl]

theorem sources_nodup (g : Graph V L) (labels : List L)
    (hnc : ¬CycleThruLabeled g labels) (p : List (V × EdgeData V L)) :
    ∀ u w, isPathG g u p w → ((labeledSteps labels p).map Prod.fst).Nodup := by
  induction p with
  | nil =>
    intro u w _
    simp [labeledSteps]
  | cons s rest ih =>
    rintro u w ⟨hu, hmem, hrest⟩
    by_cases hl : s.2.label ∈ labels
    · rw [labeledSteps_cons_pos labels s rest hl]
      simp only [List.map_cons, List.nodup_cons]
      refine ⟨?_, ih _ _ hrest⟩
      intro hmem2
      obtain ⟨s', hs', hfst⟩ := List.mem_map.mp hmem2
      have hs'' : s' ∈ rest := List.mem_of_mem_filter hs'
      have hl' : s'.2.label ∈ labels := by
        have := List.of_mem_filter hs'
        simpa using this
      obtain ⟨r1, r2, hsplit⟩ := List.append_of_mem hs''
      rw [hsplit] at hrest
      obtain ⟨m, hm1, hm2⟩ := (isPathG_append g r1 (s' :: r2) s.2.node w).mp hrest
      have hm : m = s'.1 := hm2.1
      apply hnc
      refine ⟨u, s :: r1, ⟨hu, hmem, ?_⟩, by simp, s, List.mem_cons_self _ _, hl⟩
      rw [hu, ← hfst, ← hm]
      exact hm1
    · rw [labeledSteps_cons_neg labels s rest hl]
      exact ih _ _ hrest

theorem endpoint_not_source (g : Graph V L) (labels : List L)
    (hnc : ¬CycleThruLabeled g labels) (p : List (V × EdgeData V L)) :
    ∀ u w, isPathG g u p w → w ∉ (labeledSteps labels p).map Prod.fst := by
  induction p with
  | nil =>
    intro u w _
    simp [labeledSteps]
  | cons s rest ih =>
    rintro u w ⟨hu, hmem, hrest⟩ hmem2
    by_cases hl : s.2.label ∈ labels
    · rw [labeledSteps_cons_pos labels s rest hl] at hmem2
      simp only [List.map_cons, List.mem_cons] at hmem2
      rcases hmem2 with hw | hw
      · apply hnc
        refine ⟨u, s :: rest, ⟨hu, hmem, ?_⟩, by simp, s, List.mem_cons_self _ _, hl⟩
        rw [hu, ← hw]
        exact hrest
      · exact ih _ _ hrest hw
    · rw [labeledSteps_cons_neg labels s rest hl] at hmem2
      exact ih _ _ hrest hmem2

theorem nodup_sub_length (M : List V) (Lst : List V) (h : Lst.Nodup)
    (hs : ∀ x ∈ Lst, x ∈ M) : Lst.length ≤ M.length := by
  classical
  calc Lst.length = Lst.toFinset.card := (List.toFinset_card_of_nodup h).symm
    _ ≤ M.toFinset.card := Finset.card_le_card
        (fun x hx => List.mem_toFinset.mpr (hs x (List.mem_toFinset.mp hx)))
    _ ≤ M.length := M.toFinset_card_le

theorem path_labeled_bound (g : Graph V L) (labels : List L) (hwf : g.WF)
    (hnc : ¬CycleThruLabeled g labels) (p : List (V × EdgeData V L))
    (u w : V) (hu : u ∈ g.nodes) (hp : isPathG g u p w) :
    (labeledSteps labels p).length + 1 ≤ g.nodes.length := by
  have hnodup1 := sources_nodup g labels hnc p u w hp
  have hnotin := endpoint_not_source g labels hnc p u w hp
  have hwmem : w ∈ g.nodes := isPathG_end_mem g hwf p u w hu hp
  have hLnodup : ((labeledSteps labels p).map Prod.fst ++ [w]).Nodup := by
    rw [List.nodup_append]
    exact ⟨hnodup1, List.nodup_singleton w,
      fun x hx hx2 => hnotin ((List.mem_singleton.mp hx2) ▸ hx)⟩
  have hLsub : ∀ x ∈ (labeledSteps labels p).map Prod.fst ++ [w], x ∈ g.nodes := by
    intro x hx
    rcases List.mem_append.mp hx with hx | hx
    · obtain ⟨s, hs, hfst⟩ := List.mem_map.mp hx
      have hs2 : s ∈ p := List.mem_of_mem_filter hs
      -- the source of any step of a path is in the graph
      obtain ⟨r1, r2, hsplit⟩ := List.append_of_mem hs2
      rw [hsplit] at hp
      obtain ⟨m, hm1, hm2⟩ := (isPathG_append g r1 (s :: r2) u w).mp hp
      obtain ⟨hms, hmm, _⟩ := hm2
      rw [← hfst]
      exact edgeMem_source_mem g hwf s.1 s.2 hmm
    · rw [List.mem_singleton.mp hx]
      exact hwmem
  have := nodup_sub_length g.nodes _ hLnodup hLsub
  simpa using this

theorem passScan_done (labels : List L) (n : Nat) (u : V) :
    ∀ (es : List (EdgeData V L)) (st : V → Nat) (ch : Bool) (st' : V → Nat),
      passScan labels n u es st ch = some (st', false) →
      st' = st ∧ ch = false
      ∧ ∀ e ∈ es, st e.node + (if e.label ∈ labels then 1 else 0) ≤ st u := by
  intro es
  induction es with
  | nil =>
    intro st ch st' h
    simp only [passScan] at h
    obtain ⟨h1, h2⟩ := Prod.mk.injEq _ _ _ _ ▸ (Option.some.inj h)
    exact ⟨h1.symm, h2, fun e he => absurd he (List.not_mem_nil e)⟩
  | cons e rest ih =>
    intro st ch st' h
    simp only [passScan] at h
    by_cases hn : n < (if e.label ∈ labels then
        max (st u) (1 + st e.node) else max (st u) (st e.node))
    · rw [if_pos hn] at h
      exact Option.noConfusion h
    · rw [if_neg hn] at h
      obtain ⟨h1, h2, h3⟩ := ih _ _ _ h
      have hflag : (ch || decide (¬st u = (if e.label ∈ labels then
          max (st u) (1 + st e.node) else max (st u) (st e.node)))) = false := h2
      simp only [Bool.or_eq_false_iff, decide_eq_false_iff_not, not_not] at hflag
      obtain ⟨hch, heq⟩ := hflag
      have hst' : st' = st := by
        rw [h1]
        funext x
        by_cases hx : x = u
        · rw [if_pos hx, hx, ← heq]
        · rw [if_neg hx]
      refine ⟨hst', hch, ?_⟩
      intro e' he'
      rcases List.mem_cons.mp he' with he' | he'
      · subst he'
        by_cases hl : e'.label ∈ labels
        · rw [if_pos hl]
          rw [if_pos hl] at heq
          omega
        · rw [if_neg hl]
          rw [if_neg hl] at heq
          omega
      · have := h3 e' he'
        rw [if_pos rfl, ← heq] at this
        by_cases hx : e'.node = u
        · rw [if_pos hx] at this
          rw [hx]
          exact this
        · rw [if_neg hx] at this
          exact this

theorem passBuckets_done (labels : List L) (n : Nat) :
    ∀ (bs : List (V × List (EdgeData V L))) (st : V → Nat) (ch : Bool)
      (st' : V → Nat),
      passBuckets labels n bs st ch = some (st', false) →
      st' = st ∧ ch = false
      ∧ ∀ p ∈ bs, ∀ e ∈ p.2,
          st e.node + (if e.label ∈ labels then 1 else 0) ≤ st p.1 := by
  intro bs
  induction bs with
  | nil =>
    intro st ch st' h
    simp only [passBuckets] at h
    obtain ⟨h1, h2⟩ := Prod.mk.injEq _ _ _ _ ▸ (Option.some.inj h)
    exact ⟨h1.symm, h2, fun p hp => absurd hp (List.not_mem_nil p)⟩
  | cons q rest ih =>
    intro st ch st' h
    obtain ⟨u, es⟩ := q
    simp only [passBuckets] at h
    cases hscan : passScan labels n u es st ch with
    | none => rw [hscan] at h; exact Option.noConfusion h
    | some pr =>
      obtain ⟨st1, ch1⟩ := pr
      rw [hscan] at h
      obtain ⟨h1, h2, h3⟩ := ih st1 ch1 st' h
      obtain ⟨hs1, hs2, hs3⟩ := passScan_done labels n u es st ch st1 (by rw [hscan, h2])
      subst hs1
      refine ⟨h1, hs2, ?_⟩
      intro p hp e he
      rcases List.mem_cons.mp hp with hp | hp
      · subst hp
        exact hs3 e he
      · exact h3 p hp e he

theorem stratLoop_done (labels : List L) (n : Nat)
    (bs : List (V × List (EdgeData V L))) :
    ∀ (fuel : Nat) (st st' : V → Nat),
      stratLoop labels n bs fuel st = .done st' →
      ∀ p ∈ bs, ∀ e ∈ p.2,
        st' e.node + (if e.label ∈ labels then 1 else 0) ≤ st' p.1 := by
  intro fuel
  induction fuel with
  | zero =>
    intro st st' h
    simp only [stratLoop] at h
    exact StratRes.noConfusion h
  | succ f ih =>
    intro st st' h
    simp only [stratLoop] at h
    cases hpass : passBuckets labels n bs st false with
    | none => rw [hpass] at h; exact StratRes.noConfusion h
    | some pr =>
      obtain ⟨st1, ch1⟩ := pr
      rw [hpass] at h
      cases ch1 with
      | true =>
        exact ih st1 st' h
      | false =>
        have heq : st1 = st' := StratRes.done.inj h
        obtain ⟨hs1, _, hs3⟩ := passBuckets_done labels n bs st false st1 hpass
        rw [← heq, hs1]
        exact hs3

theorem valid_path_bound (g : Graph V L) (labels : List L) (st : V → Nat)
    (hvalid : ∀ p ∈ g.edges, ∀ e ∈ p.2,
      st e.node + (if e.label ∈ labels then 1 else 0) ≤ st p.1)
    (p : List (V × EdgeData V L)) :
    ∀ u w, isPathG g u p w →
      st w + (labeledSteps labels p).length ≤ st u := by
  induction p with
  | nil =>
    intro u w h
    rw [h]
    simp [labeledSteps]
  | cons s rest ih =>
    rintro u w ⟨hu, hmem, hrest⟩
    obtain ⟨b, hb, hbm⟩ := hmem
    have hedge : st s.2.node + (if s.2.label ∈ labels then 1 else 0) ≤ st s.1 :=
      hvalid (s.1, b) (alookup_mem _ _ _ hb) s.2 hbm
    have hrec := ih s.2.node w hrest
    by_cases hl : s.2.label ∈ labels
    · rw [labeledSteps_cons_pos labels s rest hl, List.length_cons]
      rw [if_pos hl] at hedge
      rw [hu]
      omega
    · rw [labeledSteps_cons_neg labels s rest hl]
      rw [if_neg hl] at hedge
      rw [hu]
      omega

theorem stratInv_le (g : Graph V L) (labels : List L) (hwf : g.WF)
    (hnc : ¬CycleThruLabeled g labels) (st : V → Nat)
    (hinv : StratInv g labels st) : ∀ v ∈ g.nodes, st v ≤ g.nodes.length := by
  intro v hv
  obtain ⟨p, w, hp, hb⟩ := hinv.2 v hv
  exact le_trans hb (path_labeled_bound g labels hwf hnc p v w hv hp)

theorem le_relaxVal (labels : List L) (st : V → Nat) (u : V) (e : EdgeData V L) :
    st u ≤ relaxVal labels st u e := by
  unfold relaxVal
  split
  · exact Nat.le_max_left _ _
  · exact Nat.le_max_left _ _

theorem relaxVal_le (g : Graph V L) (labels : List L) (hwf : g.WF)
    (hnc : ¬CycleThruLabeled g labels) (st : V → Nat)
    (hinv : StratInv g labels st) (u : V) (hu : u ∈ g.nodes)
    (e : EdgeData V L) (he : g.edgeMem u e) :
    relaxVal labels st u e ≤ g.nodes.length := by
  have hstu : st u ≤ g.nodes.length := stratInv_le g labels hwf hnc st hinv u hu
  have hen : e.node ∈ g.nodes := edgeMem_target_mem g hwf u e he
  obtain ⟨p, w, hp, hb⟩ := hinv.2 e.node hen
  have hpe : isPathG g u ((u, e) :: p) w := ⟨rfl, he, hp⟩
  have hbnd := path_labeled_bound g labels hwf hnc ((u, e) :: p) u w hu hpe
  unfold relaxVal
  by_cases hl : e.label ∈ labels
  · rw [if_pos hl]
    rw [labeledSteps_cons_pos labels (u, e) p hl, List.length_cons] at hbnd
    exact Nat.max_le.mpr ⟨hstu, by omega⟩
  · rw [if_neg hl]
    rw [labeledSteps_cons_neg labels (u, e) p hl] at hbnd
    exact Nat.max_le.mpr ⟨hstu, by omega⟩

theorem passScan_cons (labels : List L) (n : Nat) (u : V) (e : EdgeData V L)
    (rest : List (EdgeData V L)) (st : V → Nat) (ch : Bool) :
    passScan labels n u (e :: rest) st ch
      = if n < relaxVal labels st u e then none
        else passScan labels n u rest
          (fun x => if x = u then relaxVal labels st u e else st x)
          (ch || decide (¬st u = relaxVal labels st u e)) := by
  simp only [passScan, relaxVal]

theorem passScan_spec (g : Graph V L) (labels : List L) (hwf : g.WF)
    (hnc : ¬CycleThruLabeled g labels) (u : V) (hu : u ∈ g.nodes) :
    ∀ (es : List (EdgeData V L)), (∀ e ∈ es, g.edgeMem u e) →
    ∀ (st : V → Nat) (ch : Bool), StratInv g labels st →
      ∃ st' ch', passScan labels g.nodes.length u es st ch = some (st', ch')
        ∧ StratInv g labels st'
        ∧ (∀ v, st v ≤ st' v)
        ∧ (∀ v, v ≠ u → st' v = st v)
        ∧ (ch = true → ch' = true)
        ∧ (ch = false → ch' = true → st u < st' u) := by
  intro es
  induction es with
  | nil =>
    intro _ st ch hinv
    refine ⟨st, ch, rfl, hinv, fun v => le_refl _, fun v _ => rfl,
      fun h => h, fun h1 h2 => ?_⟩
    rw [h1] at h2
    exact Bool.noConfusion h2
  | cons e rest ih =>
    intro hsub st ch hinv
    have he : g.edgeMem u e := hsub e (List.mem_cons_self _ _)
    have hle : relaxVal labels st u e ≤ g.nodes.length :=
      relaxVal_le g labels hwf hnc st hinv u hu e he
    have hur : st u ≤ relaxVal labels st u e := le_relaxVal labels st u e
    have hinv1 : StratInv g labels
        (fun x => if x = u then relaxVal labels st u e else st x) := by
      constructor
      · intro v
        by_cases hx : v = u
        · simp only [if_pos hx]
          exact le_trans (hinv.1 u) hur
        · simp only [if_neg hx]
          exact hinv.1 v
      · intro v hv
        by_cases hx : v = u
        · subst hx
          simp only [eq_self_iff_true, if_true]
          have hen : e.node ∈ g.nodes := edgeMem_target_mem g hwf v e he
          obtain ⟨p, w, hp, hb⟩ := hinv.2 e.node hen
          have hpe : isPathG g v ((v, e) :: p) w := ⟨rfl, he, hp⟩
          unfold relaxVal
          by_cases hl : e.label ∈ labels
          · rw [if_pos hl]
            rcases Nat.le_total (st v) (1 + st e.node) with hcase | hcase
            · refine ⟨(v, e) :: p, w, hpe, ?_⟩
              rw [labeledSteps_cons_pos labels (v, e) p hl, List.length_cons]
              rw [Nat.max_eq_right hcase]
              omega
            · obtain ⟨p0, w0, hp0, hb0⟩ := hinv.2 v hv
              refine ⟨p0, w0, hp0, ?_⟩
              rw [Nat.max_eq_left hcase]
              exact hb0
          · rw [if_neg hl]
            rcases Nat.le_total (st v) (st e.node) with hcase | hcase
            · refine ⟨(v, e) :: p, w, hpe, ?_⟩
              rw [labeledSteps_cons_neg labels (v, e) p hl]
              rw [Nat.max_eq_right hcase]
              exact hb
            · obtain ⟨p0, w0, hp0, hb0⟩ := hinv.2 v hv
              refine ⟨p0, w0, hp0, ?_⟩
              rw [Nat.max_eq_left hcase]
              exact hb0
        · simp only [if_neg hx]
          exact hinv.2 v hv
    obtain ⟨st', ch', heq, hinv', hmono', hoff', hflag', hstrict'⟩ :=
      ih (fun e2 h2 => hsub e2 (List.mem_cons_of_mem _ h2)) _
        (ch || decide (¬st u = relaxVal labels st u e)) hinv1
    refine ⟨st', ch', ?_, hinv', ?_, ?_, ?_, ?_⟩
    · rw [passScan_cons, if_neg (Nat.not_lt.mpr hle)]
      exact heq
    · intro v
      refine le_trans ?_ (hmono' v)
      by_cases hx : v = u
      · simp only [if_pos hx]
        exact hx ▸ hur
      · simp only [if_neg hx]
        exact le_refl _
    · intro v hv
      rw [hoff' v hv]
      simp only [if_neg hv]
    · intro h
      exact hflag' (by rw [h]; rfl)
    · intro hch hch'
      by_cases hde : st u = relaxVal labels st u e
      · have hch1 : (ch || decide (¬st u = relaxVal labels st u e)) = false := by
          rw [hch]
          simp [hde]
        have := hstrict' hch1 hch'
        simp only [if_pos rfl] at this
        rw [hde]
        exact this
      · have hlt : st u < relaxVal labels st u e :=
          Nat.lt_of_le_of_ne hur hde
        refine Nat.lt_of_lt_of_le hlt ?_
        have := hmono' u
        simp only [if_pos rfl] at this
        exact this

theorem map_sum_lt (l : List V) (f f2 : V → Nat) (hle : ∀ v ∈ l, f v ≤ f2 v)
    (u : V) (hu : u ∈ l) (hlt : f u < f2 u) :
    (l.map f).sum < (l.map f2).sum := by
  induction l with
  | nil => exact absurd hu (List.not_mem_nil u)
  | cons a rest ih =>
    simp only [List.map_cons, List.sum_cons]
    rcases List.mem_cons.mp hu with hu | hu
    · subst hu
      have hrest : (rest.map f).sum ≤ (rest.map f2).sum :=
        List.sum_le_sum (fun v hv => hle v (List.mem_cons_of_mem _ hv))
      omega
    · have ha : f a ≤ f2 a := hle a (List.mem_cons_self _ _)
      have := ih (fun v hv => hle v (List.mem_cons_of_mem _ hv)) hu
      omega

theorem passBuckets_spec (g : Graph V L) (labels : List L) (hwf : g.WF)
    (hnc : ¬CycleThruLabeled g labels) :
    ∀ (bs : List (V × List (EdgeData V L))), (∀ p ∈ bs, p ∈ g.edges) →
    ∀ (st : V → Nat) (ch : Bool), StratInv g labels st →
      ∃ st' ch', passBuckets labels g.nodes.length bs st ch = some (st', ch')
        ∧ StratInv g labels st'
        ∧ (∀ v, st v ≤ st' v)
        ∧ (ch = true → ch' = true)
        ∧ (ch = false → ch' = true → sumStrat g st < sumStrat g st') := by
  intro bs
  induction bs with
  | nil =>
    intro _ st ch hinv
    refine ⟨st, ch, rfl, hinv, fun v => le_refl _, fun h => h, fun h1 h2 => ?_⟩
    rw [h1] at h2
    exact Bool.noConfusion h2
  | cons q rest ih =>
    obtain ⟨u, es⟩ := q
    intro hsub st ch hinv
    have hq : (u, es) ∈ g.edges := hsub _ (List.mem_cons_self _ _)
    have hu : u ∈ g.nodes := (hwf.2.2 _ hq).1
    have hes : ∀ e ∈ es, g.edgeMem u e := fun e hee =>
      ⟨es, alookup_of_mem_nodup g.edges (u, es) hq hwf.2.1, hee⟩
    obtain ⟨st1, ch1, heq1, hinv1, hmono1, hoff1, hflag1, hstrict1⟩ :=
      passScan_spec g labels hwf hnc u hu es hes st ch hinv
    obtain ⟨st', ch', heq2, hinv', hmono2, hflag2, hsum2⟩ :=
      ih (fun p hp => hsub p (List.mem_cons_of_mem _ hp)) st1 ch1 hinv1
    refine ⟨st', ch', ?_, hinv',
      fun v => le_trans (hmono1 v) (hmono2 v), fun h => hflag2 (hflag1 h), ?_⟩
    · simp only [passBuckets, heq1]
      exact heq2
    · intro hch hch'
      cases hch1 : ch1 with
      | false =>
        have h1 : sumStrat g st1 < sumStrat g st' := hsum2 hch1 hch'
        have h2 : sumStrat g st ≤ sumStrat g st1 :=
          List.sum_le_sum (fun v _ => hmono1 v)
        omega
      | true =>
        have hlt : st u < st1 u := hstrict1 hch hch1
        have h1 : sumStrat g st < sumStrat g st1 :=
          map_sum_lt g.nodes st st1 (fun v _ => hmono1 v) u hu hlt
        have h2 : sumStrat g st1 ≤ sumStrat g st' :=
          List.sum_le_sum (fun v _ => hmono2 v)
        omega

theorem sumStrat_le (g : Graph V L) (labels : List L) (hwf : g.WF)
    (hnc : ¬CycleThruLabeled g labels) (st : V → Nat)
    (hinv : StratInv g labels st) :
    sumStrat g st ≤ g.nodes.length * g.nodes.length := by
  have h : ∀ x ∈ g.nodes.map st, x ≤ g.nodes.length := by
    intro x hx
    obtain ⟨v, hv, rfl⟩ := List.mem_map.mp hx
    exact stratInv_le g labels hwf hnc st hinv v hv
  have h2 := List.sum_le_card_nsmul (g.nodes.map st) g.nodes.length h
  simpa [sumStrat, smul_eq_mul] using h2

theorem stratLoop_some (g : Graph V L) (labels : List L) (hwf : g.WF)
    (hnc : ¬CycleThruLabeled g labels) :
    ∀ (fuel : Nat) (st : V → Nat), StratInv g labels st →
      g.nodes.length * g.nodes.length + 1 ≤ fuel + sumStrat g st →
      ∃ st', stratLoop labels g.nodes.length g.edges fuel st = .done st'
        ∧ StratInv g labels st' := by
  intro fuel
  induction fuel with
  | zero =>
    intro st hinv hfuel
    rw [Nat.zero_add] at hfuel
    exact absurd (le_trans hfuel (sumStrat_le g labels hwf hnc st hinv))
      (Nat.not_succ_le_self _)
  | succ f ih =>
    intro st hinv hfuel
    obtain ⟨st1, ch1, heq, hinv1, hmono, _, hsum⟩ :=
      passBuckets_spec g labels hwf hnc g.edges (fun p hp => hp) st false hinv
    cases hch : ch1 with
    | false =>
      rw [hch] at heq
      refine ⟨st1, ?_, hinv1⟩
      simp only [stratLoop, heq, Bool.false_eq_true, if_false]
    | true =>
      rw [hch] at heq
      have hlt : sumStrat g st < sumStrat g st1 := hsum rfl hch
      have hfuel1 : g.nodes.length * g.nodes.length + 1 ≤ f + sumStrat g st1 := by
        refine le_trans hfuel ?_
        have hstep : 1 + sumStrat g st ≤ sumStrat g st1 := by omega
        calc f + 1 + sumStrat g st = f + (1 + sumStrat g st) := by omega
          _ ≤ f + sumStrat g st1 := Nat.add_le_add_left hstep f
      obtain ⟨st', hdone, hinv'⟩ := ih st1 hinv1 hfuel1
      refine ⟨st', ?_, hinv'⟩
      simp only [stratLoop, heq, if_true]
      exact hdone

theorem exStratCycle_cyclic : CycleThruLabeled exStratCycle [1] := by
  refine ⟨0, [(0, ⟨1, 1⟩), (1, ⟨0, 1⟩)], ?_, by decide,
    (0, ⟨1, 1⟩), by decide, by decide⟩
  exact ⟨rfl, ⟨[⟨1, 1⟩], by decide, by decide⟩, rfl,
    ⟨[⟨0, 1⟩], by decide, by decide⟩, rfl⟩

theorem exStratAcyclic_acyclic : ¬CycleThruLabeled exStratAcyclic [1] := by
  rintro ⟨u, p, hpath, hne, -⟩
  cases p with
  | nil => exact hne rfl
  | cons s0 rest =>
    obtain ⟨hu, ⟨b, hb, hm⟩, hrest⟩ := hpath
    have hedges : exStratAcyclic.edges = [(0, [⟨1, 1⟩])] := rfl
    rw [hedges] at hb
    by_cases h0 : (0 : Nat) = s0.1
    · simp only [alookup, if_pos h0] at hb
      have hb2 : b = [⟨1, 1⟩] := (Option.some.inj hb).symm
      subst hb2
      have hs0 : s0.2 = ⟨1, 1⟩ := by simpa using hm
      rw [hs0] at hrest
      cases rest with
      | nil =>
        have h1u : (1 : Nat) = u := hrest
        have hu' : u = s0.1 := hu
        omega
      | cons s1 rest2 =>
        obtain ⟨h1s, ⟨b2, hb2, -⟩, -⟩ := hrest
        have h1s' : (1 : Nat) = s1.1 := h1s
        rw [hedges] at hb2
        simp only [alookup] at hb2
        rw [if_neg (by omega : ¬(0 : Nat) = s1.1)] at hb2
        exact Option.noConfusion hb2
    · simp only [alookup, if_neg h0] at hb
      exact Option.noConfusion hb

/-- **C1.** For every well-formed directed labeled graph and every list of
stratifying labels: if the graph has no cycle passing through an edge whose
label is stratifying, `stratification` returns a stratum assignment with
every stratum at least `1`, non-decreasing along every edge and strictly
increasing along every stratifying-labeled edge; if the graph has such a
cycle, `stratification` returns `none`. -/
theorem claim1_stratification (g : Graph V L) (labels : List L) (hwf : g.WF) :
    (¬CycleThruLabeled g labels →
      ∃ st, g.stratification labels = some st
        ∧ (∀ v, 1 ≤ st v)
        ∧ ∀ a e, g.edgeMem a e →
            st e.node ≤ st a ∧ (e.label ∈ labels → st e.node + 1 ≤ st a))
    ∧ (CycleThruLabeled g labels → g.stratification labels = none) := by
  constructor
  · intro hnc
    have hinv0 : StratInv g labels (fun _ => 1) := by
      refine ⟨fun v => le_refl 1, fun v hv => ⟨[], v, rfl, ?_⟩⟩
      simp [labeledSteps]
    have hfuel : g.nodes.length * g.nodes.length + 1
        ≤ (g.nodes.length * g.nodes.length + 2) + sumStrat g (fun _ => 1) :=
      le_trans (Nat.add_le_add_left (by decide) _) (Nat.le_add_right _ _)
    obtain ⟨st, hdone, hinv⟩ :=
      stratLoop_some g labels hwf hnc (g.nodes.length * g.nodes.length + 2)
        (fun _ => 1) hinv0 hfuel
    have hvalid := stratLoop_done labels g.nodes.length g.edges _ _ st hdone
    refine ⟨st, ?_, hinv.1, ?_⟩
    · simp only [Graph.stratification]
      rw [hdone]
    · intro a e hae
      obtain ⟨b, hb, hm⟩ := hae
      have hthis : st e.node + (if e.label ∈ labels then 1 else 0) ≤ st a :=
        hvalid (a, b) (alookup_mem _ _ _ hb) e hm
      constructor
      · by_cases hl : e.label ∈ labels
        · rw [if_pos hl] at hthis; omega
        · rw [if_neg hl] at hthis; omega
      · intro hl
        rw [if_pos hl] at hthis; omega
  · intro hcyc
    simp only [Graph.stratification]
    cases hres : stratLoop labels g.nodes.length g.edges
        (g.nodes.length * g.nodes.length + 2) (fun _ => 1) with
    | fuelOut => rfl
    | bail => rfl
    | done st =>
      exfalso
      have hvalid := stratLoop_done labels g.nodes.length g.edges _ _ st hres
      obtain ⟨u, p, hpath, hne, s, hs, hsl⟩ := hcyc
      have hbound := valid_path_bound g labels st hvalid p u u hpath
      have hmemf : s ∈ labeledSteps labels p :=
        List.mem_filter.mpr ⟨hs, decide_eq_true hsl⟩
      have hpos : 0 < (labeledSteps labels p).length :=
        List.length_pos_of_mem hmemf
      omega

/-- Closed instances of `claim1_stratification`: the single stratifying edge
`0 → 1` is acyclic and gets a valid stratification; the two-node negation
cycle of the spec makes `stratification` return `none`. -/
theorem claim1_stratification_witness :
    (∃ st, exStratAcyclic.stratification [1] = some st
      ∧ (∀ v, 1 ≤ st v)
      ∧ ∀ a e, exStratAcyclic.edgeMem a e →
          st e.node ≤ st a ∧ (e.label ∈ [1] → st e.node + 1 ≤ st a))
    ∧ exStratCycle.stratification [1] = none :=
  ⟨(claim1_stratification exStratAcyclic [1] (by decide)).1 exStratAcyclic_acyclic,
   (claim1_stratification exStratCycle [1] (by decide)).2 exStratCycle_cyclic⟩

end StratTheorems

end Congress
